import Mathlib

/-!
Verification of the m3u8 downloader against its specification.

Strings of the C++ sources are modelled as `List Char` (`Str`), std::map as
association lists queried through `mapFind?`, and the libcurl environment of
the download engine as an explicit schedule of completion messages.  Every
definition is translated from the corresponding function of the sources
(file and line references are given in the doc comments); the one function
whose body is not part of the sources (`tokenize` of string_util) is modelled
from the specification and the unit tests, and is marked as such.
-/

namespace CurlM3u8

/-- Strings are modelled as lists of characters. -/
abbrev Str := List Char

/-- Character literal list of a Lean string. -/
def strLit (s : String) : Str := s.data

/-- Whitespace predicate of `std::isspace` in the default C locale. -/
def isSpaceChar (c : Char) : Bool :=
  c = ' ' || c = '\t' || c = '\n' || c = '\x0b' || c = '\x0c' || c = '\r'

/-- Left-and-right trim of string_util.h (`trim`, src/string_util.h:14-27):
erase the leading whitespace run, then the trailing whitespace run. -/
def trim (s : Str) : Str :=
  (s.dropWhile isSpaceChar).rdropWhile isSpaceChar

/-- Split a string at every occurrence of the delimiter `d`; empty pieces are
kept (the raw split underlying the tokenizer). -/
def splitDelim (d : Char) : Str → List Str
  | [] => [[]]
  | c :: rest =>
    if c = d then [] :: splitDelim d rest
    else
      match splitDelim d rest with
      | s :: ss => (c :: s) :: ss
      | [] => [[c]]

/-- Modelled from the spec: the body of `tokenize` (declared in
src/string_util.h's companion and exercised by src/string_util_test.cc) is not
part of the sources.  The spec describes it as the delimiter tokenizer of
StringUtils and the unit test `tokenize(";;;token1;token2;", ';') =
["token1","token2"]` shows that empty pieces are dropped. -/
def tokenize (s : Str) (d : Char) : List Str :=
  (splitDelim d s).filter (fun t => ¬ t.isEmpty)

theorem splitDelim_ne_nil (d : Char) (s : Str) : splitDelim d s ≠ [] := by
  cases s with
  | nil => simp [splitDelim]
  | cons c rest =>
    simp only [splitDelim]
    split
    · simp
    · cases h : splitDelim d rest <;> simp

theorem splitDelim_append (d : Char) (x y : Str) :
    splitDelim d (x ++ d :: y) = splitDelim d x ++ splitDelim d y := by
  induction x with
  | nil => simp [splitDelim]
  | cons c x ih =>
    by_cases hc : c = d
    · simp [splitDelim, hc, ih]
    · simp only [List.cons_append, splitDelim, hc, if_false, ih]
      have h1 := splitDelim_ne_nil d x
      cases h : splitDelim d x with
      | nil => exact absurd h h1
      | cons s ss => simp [h, ih]

theorem splitDelim_no_delim (d : Char) (x : Str) (h : ∀ c ∈ x, c ≠ d) :
    splitDelim d x = [x] := by
  induction x with
  | nil => simp [splitDelim]
  | cons c rest ih =>
    have hc : c ≠ d := h c (by simp)
    have hrest : ∀ a ∈ rest, a ≠ d := fun a ha => h a (by simp [ha])
    simp [splitDelim, hc, ih hrest]

/-! Association-list model of `std::map<std::string, std::string>`.  All the
claims observe a map only through key lookup, so the internal ordering of
`std::map` (sorted by key) need not be reproduced; an association list with
the corresponding operations is used instead. -/

/-- Property maps of the parser. -/
abbrev PropMap := List (Str × Str)

/-- Lookup of a key, first matching entry. -/
def mapFind? (m : PropMap) (k : Str) : Option Str :=
  (m.find? (fun kv => kv.1 = k)).map (fun kv => kv.2)

/-- Test for `std::map::contains`. -/
def mapContains (m : PropMap) (k : Str) : Bool :=
  (mapFind? m k).isSome

/-- Assignment `m[k] = v` of `std::map::operator[]`: overwrite the entry of
`k` when present, append it otherwise. -/
def mapAssign (m : PropMap) (k v : Str) : PropMap :=
  match m with
  | [] => [(k, v)]
  | (k', v') :: rest =>
    if k' = k then (k', v) :: rest else (k', v') :: mapAssign rest k v

/-- Merge of `for(prop : props) properties[prop.first] = prop.second`
(src/m3u8.cc:53-54 and 61-62): assign every entry of `p` into `m`. -/
def mapMergeAssign (m p : PropMap) : PropMap :=
  p.foldl (fun acc kv => mapAssign acc kv.1 kv.2) m

/-! The attribute tokenizer and parser of src/m3u8.cc. -/

/-- Quotation mark count of a token (`std::ranges::count(token, '"')`). -/
def countQuotes (t : Str) : Nat := t.count '"'

/-- Test for `token.ends_with('"')`. -/
def endsWithQuote (t : Str) : Bool := t.getLast? = some '"'

/-- Fixing pass of `tokenize_properties` (src/m3u8.cc:170-202): reassemble
double-quoted values that were split at inner commas.  `quotstr` is the
accumulator of the partially reassembled token; a non-empty accumulator left
over at the end of the token list is discarded, as in the source. -/
def fixTokens : List Str → Str → List Str
  | [], _ => []
  | t :: rest, quotstr =>
    if quotstr ≠ [] then
      let quotstr2 := quotstr ++ ',' :: t
      if endsWithQuote t then quotstr2 :: fixTokens rest []
      else fixTokens rest quotstr2
    else if countQuotes t = 1 then fixTokens rest t
    else t :: fixTokens rest []

/-- Tokenizer `tokenize_properties` (src/m3u8.cc:157-205): split the
info-string at commas, then reassemble quoted values. -/
def tokenize_properties (info : Str) : List Str :=
  let tokens := tokenize info ','
  if tokens.isEmpty then [] else fixTokens tokens []

/-- Parse of one `KEY=VALUE` string (`parse_property`, src/m3u8.cc:228-245):
split at the first `=`, trim both sides, and strip one pair of outer double
quotes from the value. -/
def parse_property (prop : Str) : Str × Str :=
  match prop.findIdx? (fun c => c = '=') with
  | none => ([], prop)
  | some signPos =>
    let key := trim (prop.take signPos)
    let value := trim (prop.drop (signPos + 1))
    if 2 ≤ value.length ∧ value.head? = some '"' ∧ value.getLast? = some '"'
    then (key, (value.drop 1).dropLast)
    else (key, value)

/-- Parse of a token list (`parse_properties`, src/m3u8.cc:208-225): tokens
without `=` are skipped, and on duplicate keys the first occurrence wins. -/
def parse_properties (props : List Str) : PropMap :=
  props.foldl
    (fun ret prop =>
      if prop.contains '=' then
        let kv := parse_property prop
        if mapContains ret kv.1 then ret else ret ++ [kv]
      else ret)
    []

/-- Info parse of `#EXT-X-STREAM-INF:` lines (`parse_extxstreaminfo`,
src/m3u8.cc:136-151). -/
def parse_extxstreaminfo (line : Str) : PropMap :=
  match line.findIdx? (fun c => c = ':') with
  | none => []
  | some pos =>
    let info := line.drop (pos + 1)
    let tokens := tokenize_properties info
    if tokens.length = 0 then [] else parse_properties tokens

/-- Info parse of `#EXTINF:` lines (`parse_extinf`, src/m3u8.cc:83-132): the
first token is the runtime, the optional last token the display title; either
one is instead parsed as a key/value pair when it contains `=`. -/
def parse_extinf (line : Str) : PropMap :=
  match line.findIdx? (fun c => c = ':') with
  | none => []
  | some pos =>
    let info := line.drop (pos + 1)
    let tokens := tokenize_properties info
    match tokens with
    | [] => []
    | first :: tokens1 =>
      let firstToken := trim first
      let lastToken := match tokens1.getLast? with
        | some t => trim t
        | none => []
      let tokens2 := tokens1.dropLast
      let props := parse_properties tokens2
      let props :=
        if ¬ firstToken.contains '=' then mapAssign props (strLit "RUNTIME") firstToken
        else
          let kv := parse_property firstToken
          mapAssign props kv.1 kv.2
      if lastToken ≠ [] then
        if ¬ lastToken.contains '=' then mapAssign props (strLit "DISPLAY-TITLE") lastToken
        else
          let kv := parse_property lastToken
          mapAssign props kv.1 kv.2
      else props

/-! The playlist data model and the line-dispatch loop of `parse_m3u8`. -/

/-- Record `urlprops_t` (src/m3u8.h:29-33). -/
structure urlprops_t where
  url : Str
  properties : PropMap
deriving DecidableEq, Repr

/-- Playlist result of parsing (the `m3u8_t` fields, src/m3u8.h:79-85);
`error` is true when `m3u8_errc::wrong_file_format` was recorded. -/
structure m3u8_t where
  urls : List urlprops_t
  master : Bool
  playlist : Bool
  error : Bool
deriving DecidableEq, Repr

/-- First line of a character stream as `std::getline` reads it. -/
def firstLineOf (s : Str) : Str := s.takeWhile (fun c => c ≠ '\n')

/-- Line sequence that repeated `std::getline` produces from a buffer: split
at newlines, except that a trailing newline does not produce a final empty
line (`getline` fails at end of stream). -/
def getlines (s : Str) : List Str :=
  let ls := splitDelim '\n' s
  if s.getLast? = some '\n' then ls.dropLast else ls

/-- Literal `#EXTM3U` (src/m3u8.cc:19). -/
def EXTM3U : Str := strLit "#EXTM3U"

/-- Test for `line.starts_with(p)`. -/
def startsWith (p s : Str) : Bool := p.isPrefixOf s

/-- Body loop of `m3u8_t::parse_m3u8` (src/m3u8.cc:48-76), one step per
`getline`: directive lines merge their attributes into the pending property
map, a non-`#` non-empty line emits a url record and resets the pending map,
an empty line resets the pending map, and any other `#` line is ignored.
Returns the url records together with the master/playlist flags. -/
def parseBody : List Str → PropMap → Bool → Bool → List urlprops_t × Bool × Bool
  | [], _, m, p => ([], m, p)
  | line :: rest, properties, m, p =>
    if startsWith (strLit "#EXT-X-STREAM-INF:") line then
      parseBody rest (mapMergeAssign properties (parse_extxstreaminfo line)) true p
    else if startsWith (strLit "#EXTINF:") line then
      parseBody rest (mapMergeAssign properties (parse_extinf line)) m true
    else if ¬ startsWith (strLit "#") line ∧ line ≠ [] then
      let r := parseBody rest [] m p
      (⟨line, properties⟩ :: r.1, r.2)
    else if line = [] then
      parseBody rest [] m p
    else
      parseBody rest properties m p

/-- Parse `m3u8_t::parse_m3u8` (src/m3u8.cc:31-79) over the line sequence of
the input: the first line must equal `#EXTM3U` exactly, then the body loop
runs over the remaining lines. -/
def parse_m3u8 (lines : List Str) : m3u8_t :=
  match lines with
  | [] => ⟨[], false, false, true⟩
  | first :: rest =>
    if first ≠ EXTM3U then ⟨[], false, false, true⟩
    else
      let r := parseBody rest [] false false
      ⟨r.1, r.2.1, r.2.2, false⟩

/-- Constructor `m3u8_t::m3u8_t(std::vector<char> const&)` (src/m3u8.cc:265-271)
on the byte content of a buffer. -/
def m3u8_ofBuffer (buffer : Str) : m3u8_t := parse_m3u8 (getlines buffer)

/-- Predicate `is_m3u8` on a buffer (src/m3u8.cc:366-381): false when the
buffer is shorter than `#EXTM3U`, otherwise compare the first seven bytes
of the buffer with `#EXTM3U`. -/
def is_m3u8_buffer (buffer : Str) : Bool :=
  if buffer.length < EXTM3U.length then false
  else buffer.take EXTM3U.length = EXTM3U

/-- Predicate `is_m3u8` on a file (src/m3u8.cc:351-364), modelled on the
content of a readable file (the filesystem-error channel for an unopenable
file is not modelled): read the first line and compare it with `#EXTM3U`. -/
def is_m3u8_file (content : Str) : Bool := firstLineOf content = EXTM3U

/-! Url classification and rebasing (src/m3u8.cc:284-347). -/

/-- Word character of the ECMAScript class `\w`: ASCII letters, digits and
underscore. -/
def wordChar (c : Char) : Bool :=
  ('a' ≤ c && c ≤ 'z') || ('A' ≤ c && c ≤ 'Z') || ('0' ≤ c && c ≤ '9') || c = '_'

/-- Line terminator that the ECMAScript `.` does not match (on `char`
input, `\n` and `\r`). -/
def lineTerm (c : Char) : Bool := c = '\n' || c = '\r'

/-- Predicate `is_absolute_url` (src/m3u8.cc:308-311):
`std::regex_match(url, "^\w{3,5}://.*$")`, i.e. three to five word characters,
the literal `://`, and a remainder free of line terminators. -/
def is_absolute_url (u : Str) : Bool :=
  [3, 4, 5].any (fun k =>
    (u.take k).length = k && (u.take k).all wordChar &&
    startsWith (strLit "://") (u.drop k) &&
    (u.drop (k + 3)).all (fun c => ¬ lineTerm c))

/-- Loop of `m3u8_t::set_urlprefix` stripping trailing slashes from the base
(src/m3u8.cc:337-339): decrement the kept length while the kept part ends
with `/`. -/
def keptLen (p : Str) : Nat → Nat
  | 0 => 0
  | n + 1 => if (p.take (n + 1)).getLast? = some '/' then keptLen p n else n + 1

/-- Loop of `m3u8_t::set_urlprefix` erasing leading slashes from the url
(src/m3u8.cc:341-342). -/
def eraseLeadingSlashes : Str → Str
  | [] => []
  | c :: rest => if c = '/' then eraseLeadingSlashes rest else c :: rest

/-- Url rebasing `m3u8_t::set_urlprefix` (declared `set_baseurl` in
src/m3u8.h:58; src/m3u8.cc:327-347): each relative url is replaced by the
base stripped of trailing slashes, a single `/`, and the url stripped of
leading slashes; absolute urls are untouched. -/
def set_baseurl (urls : List urlprops_t) (base : Str) : List urlprops_t :=
  urls.map (fun up =>
    if is_absolute_url up.url then up
    else ⟨base.take (keptLen base base.length) ++ '/' :: eraseLeadingSlashes up.url,
          up.properties⟩)

/-! The download engine of src/curl_wrapper.cc.  The libcurl environment is
modelled by oracles: a per-item setup outcome (whether `curl_handle_t::init`
plus `curl_multi_add_handle` succeed, and the error text when not), and a
schedule of completion-message batches, one batch per iteration of the main
loop; each message carries the transport result of the transfer and the
observable state of the destination file that `verify_file` inspects.
Progress-meter calls are elided: they touch no engine state that the claims
observe. -/

/-- Work item `pathurl_t` (src/curl_wrapper.h). -/
structure pathurl_t where
  path : Str
  url : Str
deriving DecidableEq, Repr

/-- Error record `curl_wrapper_error` with message, url and filename. -/
structure curl_wrapper_error where
  message : Str
  url : Str
  filename : Str
deriving DecidableEq, Repr

/-- Result record `results_t` of `download_files`. -/
structure results_t where
  succeeded_files : List Str
  errors : List curl_wrapper_error
deriving DecidableEq, Repr

/-- Observable state of a downloaded destination file, as `verify_file`
(src/curl_wrapper.cc:458-502) inspects it: the result of
`std::filesystem::file_size` (error message or byte count), the result of
re-opening the file, and its line sequence. -/
structure filedata_t where
  sizeErr : Option Str
  size : Nat
  openErr : Option Str
  lines : List Str
deriving DecidableEq, Repr

/-- Completion message drained from the multi-handle: the submission index
recovered from `CURLINFO_PRIVATE`, the transport result (`none` for
`CURLE_OK`, otherwise the `curl_easy_strerror` text), and the state of the
downloaded file. -/
structure message_t where
  index : Nat
  result : Option Str
  file : filedata_t
deriving DecidableEq, Repr

/-- Greedy tail of the ECMAScript match of `<title>(.*)</title>`: the longest
split of `s` into a capture free of line terminators followed immediately by
`</title>` (the remainder after it is unconstrained). -/
def greedyClose (s : Str) : Option Str :=
  (List.range (s.length + 1)).reverse.findSome? (fun k =>
    if startsWith (strLit "</title>") (s.drop k) &&
       (s.take k).all (fun c => ¬ lineTerm c)
    then some (s.take k) else none)

/-- Capture of `std::regex_search(line, "<title>(.*)</title>")`
(src/curl_wrapper.cc:492): leftmost occurrence of `<title>` that is closed by
a later `</title>` with no line terminator in between; the capture is greedy. -/
def titleCapture : Str → Option Str
  | [] => none
  | c :: rest =>
    if startsWith (strLit "<title>") (c :: rest) then
      match greedyClose ((c :: rest).drop 7) with
      | some cap => some cap
      | none => titleCapture rest
    else titleCapture rest

/-- Scan of one line of a small downloaded file (src/curl_wrapper.cc:484-496):
the literal substring `error code: 1015` yields the rate-limit error, else a
`<title>...</title>` match yields its capture as error; both checks are made
on the same line in this order. -/
def lineError (line url path : Str) : Option curl_wrapper_error :=
  if decide ((strLit "error code: 1015") <:+: line) then
    some ⟨strLit "rate limit exceeded", url, path⟩
  else
    match titleCapture line with
    | some cap => some ⟨cap, url, path⟩
    | none => none

/-- Line loop of `verify_file` (src/curl_wrapper.cc:483-496): return the error
of the first line that matches either pattern. -/
def scanFileLines : List Str → Str → Str → Option curl_wrapper_error
  | [], _, _ => none
  | line :: rest, url, path =>
    match lineError line url path with
    | some e => some e
    | none => scanFileLines rest url path

/-- Verification pass `verify_file` (src/curl_wrapper.cc:458-502): a
filesystem error from the size lookup becomes the transfer's error; a size of
at most 1024 bytes triggers the line scan (ending in `unknown error` when no
line matches); otherwise the file passes. -/
def verify_file (path url : Str) (file : filedata_t) : Option curl_wrapper_error :=
  match file.sizeErr with
  | some m => some ⟨m, url, path⟩
  | none =>
    if file.size ≤ 1024 then
      match file.openErr with
      | some m => some ⟨strLit "Couldn't open file after download: " ++ m, url, path⟩
      | none =>
        match scanFileLines file.lines url path with
        | some e => some e
        | none => some ⟨strLit "unknown error", url, path⟩
    else none

/-- Engine state of the `download_files` main loop (src/curl_wrapper.cc:286-391):
the submit cursor `i`, the `active_handles` counter, the indices currently
attached to the multi-handle, the `handles` vector (a slot is `none` while the
handle is default-constructed or moved out), the accumulated results, and the
largest number of simultaneously attached transfers observed so far. -/
structure engine_state where
  i : Nat
  active : Nat
  attached : List Nat
  handles : List (Option pathurl_t)
  results : results_t
  peak : Nat
deriving DecidableEq, Repr

/-- Top-off loop of `download_files` (src/curl_wrapper.cc:299-319): while
fewer than `max_active_handles = 5` transfers are active and work items
remain, submit the next item; a setup failure records an error and advances
the cursor without attaching.  `setupOk`/`setupMsg` are the oracle of
`curl_multi_add_handle` (src/curl_wrapper.cc:398-422).  The recursion is
bounded by the explicit fuel, which the wrapper sets to the number of
remaining items. -/
def topoffAux (pathurls : List pathurl_t) (setupOk : Nat → Bool)
    (setupMsg : Nat → Str) : Nat → engine_state → engine_state
  | 0, st => st
  | fuel + 1, st =>
    if st.active < 5 ∧ st.i < pathurls.length then
      let pu := pathurls.getD st.i ⟨[], []⟩
      if setupOk st.i then
        topoffAux pathurls setupOk setupMsg fuel
          { st with
            i := st.i + 1
            active := st.active + 1
            attached := st.attached ++ [st.i]
            handles := st.handles.set st.i (some pu)
            peak := max st.peak (st.attached.length + 1) }
      else
        topoffAux pathurls setupOk setupMsg fuel
          { st with
            i := st.i + 1
            results := { st.results with
              errors := st.results.errors ++ [⟨setupMsg st.i, pu.url, pu.path⟩] } }
    else st

/-- Top-off with sufficient fuel. -/
def topoff (pathurls : List pathurl_t) (setupOk : Nat → Bool)
    (setupMsg : Nat → Str) (st : engine_state) : engine_state :=
  topoffAux pathurls setupOk setupMsg (pathurls.length - st.i) st

/-- Message drain of `download_files` (src/curl_wrapper.cc:330-366), one step
per `curl_multi_info_read` message: detach the handle, take its path and url
out of the handles vector, verify on transport success, update the
consecutive-error counter (reset on the good case, incremented on either
error case) and return early once it reaches 5.  The returned flag is true
exactly when the breaker tripped. -/
def drainMsgs : List message_t → Nat → engine_state → engine_state × Bool
  | [], _, st => (st, false)
  | msg :: rest, consecutive_errors, st =>
    let h := ((st.handles.getD msg.index none).getD ⟨[], []⟩)
    let st := { st with
      attached := st.attached.erase msg.index
      handles := st.handles.set msg.index none }
    match msg.result with
    | none =>
      match verify_file h.path h.url msg.file with
      | none =>
        let st := { st with results := { st.results with
          succeeded_files := st.results.succeeded_files ++ [h.path] } }
        drainMsgs rest 0 st
      | some e =>
        let st := { st with results := { st.results with
          errors := st.results.errors ++ [e] } }
        if 5 ≤ consecutive_errors + 1 then (st, true)
        else drainMsgs rest (consecutive_errors + 1) st
    | some m =>
      let st := { st with results := { st.results with
        errors := st.results.errors ++ [⟨m, h.url, h.path⟩] } }
      if 5 ≤ consecutive_errors + 1 then (st, true)
      else drainMsgs rest (consecutive_errors + 1) st

/-- Main loop of `download_files` (src/curl_wrapper.cc:296-391), one
iteration per batch of the schedule: top off the active set, let
`curl_multi_perform` report the still-running count (the attached transfers
minus the completions of this batch), drain the completion messages with the
consecutive-error counter initialised to zero (it is declared inside the
loop, src/curl_wrapper.cc:330), and stop early when the breaker tripped.
Driver-level failures of perform/timeout/wait are not scheduled. -/
def engineLoop (pathurls : List pathurl_t) (setupOk : Nat → Bool)
    (setupMsg : Nat → Str) : List (List message_t) → engine_state → engine_state × Bool
  | [], st => (st, false)
  | batch :: rest, st =>
    let st1 := topoff pathurls setupOk setupMsg st
    let st2 := { st1 with active := st1.attached.length - batch.length }
    let r := drainMsgs batch 0 st2
    if r.2 then (r.1, true) else engineLoop pathurls setupOk setupMsg rest r.1

/-- Engine `download_files` (src/curl_wrapper.cc:253-394) run against a
schedule: returns the accumulated results, whether the breaker tripped, and
the peak number of simultaneously attached transfers. -/
def download_files (pathurls : List pathurl_t) (setupOk : Nat → Bool)
    (setupMsg : Nat → Str) (schedule : List (List message_t)) :
    results_t × Bool × Nat :=
  let r := engineLoop pathurls setupOk setupMsg schedule
    ⟨0, 0, [], List.replicate pathurls.length none, ⟨[], []⟩, 0⟩
  (r.1.results, r.2, r.1.peak)

/-- Well-formedness of one batch of completion messages against the attached
set: libcurl reports each attached transfer as done at most once, and only
attached transfers complete. -/
def wfBatch (attached : List Nat) (batch : List message_t) : Bool :=
  (batch.map (fun m => m.index)).Nodup ∧ ∀ m ∈ batch, m.index ∈ attached

/-- Well-formedness of a schedule: every batch is well-formed against the
attached set at its drain point. -/
def wfSchedule (pathurls : List pathurl_t) (setupOk : Nat → Bool)
    (setupMsg : Nat → Str) : List (List message_t) → engine_state → Bool
  | [], _ => true
  | batch :: rest, st =>
    let st1 := topoff pathurls setupOk setupMsg st
    wfBatch st1.attached batch &&
      wfSchedule pathurls setupOk setupMsg rest
        (drainMsgs batch 0 { st1 with active := st1.attached.length - batch.length }).1

/-- Initial engine state for `n` work items. -/
def initState (n : Nat) : engine_state :=
  ⟨0, 0, [], List.replicate n none, ⟨[], []⟩, 0⟩

/-! Byte formatting of src/progressmeter.cc.  The `double` quantity of
`shorten_bytes` is modelled as a rational: dividing by a power of two is
exact in IEEE 754 binary64 as long as the dividend is exactly representable,
which holds throughout the range the theorems speak about (byte counts below
1000·1024³ < 2⁵³), and at the concrete counterexample value. -/

/-- Formatter `shorten_bytes` (src/progressmeter.cc:398-428): divide the
integer byte count by 1024 while it is at least 1000, up to three times, and
report the exactly scaled quantity with the matching unit. -/
def shorten_bytes (bytes : Nat) : ℚ × Str :=
  let s0 := bytes
  let r0 : ℚ × Str := ((bytes : ℚ), strLit "B")
  let s1 := if 1000 ≤ s0 then s0 / 1024 else s0
  let r1 := if 1000 ≤ s0 then ((bytes : ℚ) / 1024, strLit "KiB") else r0
  let s2 := if 1000 ≤ s1 then s1 / 1024 else s1
  let r2 := if 1000 ≤ s1 then ((bytes : ℚ) / 1024 ^ 2, strLit "MiB") else r1
  let r3 := if 1000 ≤ s2 then ((bytes : ℚ) / 1024 ^ 3, strLit "GiB") else r2
  r3

/-- Unit exponent of the units `shorten_bytes` can produce. -/
def unitExp (u : Str) : Nat :=
  if u = strLit "KiB" then 1
  else if u = strLit "MiB" then 2
  else if u = strLit "GiB" then 3
  else 0

/-! Segment-name derivation of the orchestrator (src/main.cc:124-136). -/

/-- Padding-width loop of main (src/main.cc:124-126):
`ndigits = 1; while(pow(10, ndigits) < N) ndigits++`.  The recursion is
bounded by the explicit fuel, which the wrapper sets to the item count (the
loop stops after at most `log₁₀ N` increments). -/
def ndigitsAux (n : Nat) : Nat → Nat → Nat
  | 0, d => d
  | fuel + 1, d => if 10 ^ d < n then ndigitsAux n fuel (d + 1) else d

/-- Padding width of the segment names for `n` segments. -/
def calc_ndigits (n : Nat) : Nat := ndigitsAux n n 1

/-- Zero left-padding of the format specification `{:0>{w}}`: fill with `0`
on the left up to width `w`. -/
def padZero (w : Nat) (s : Str) : Str := List.replicate (w - s.length) '0' ++ s

/-- Segment filename `std::format("{}-{:0>{}}-v1-a1.ts", name, i, ndigits)`
(src/main.cc:132). -/
def segname (name : Str) (i : Nat) (w : Nat) : Str :=
  name ++ '-' :: padZero w (strLit (Nat.repr i)) ++ strLit "-v1-a1.ts"

/-- Work-item build loop of main (src/main.cc:128-136): the counter `i`
starts at 1 and each url of the media playlist is paired with its derived
segment filename. -/
def buildFrom (name : Str) (w : Nat) : Nat → List Str → List (Str × Str)
  | _, [] => []
  | i, u :: rest => (segname name i w, u) :: buildFrom name w (i + 1) rest

/-- Work items the orchestrator hands to `download_files`. -/
def buildPathUrls (name : Str) (urls : List Str) : List (Str × Str) :=
  buildFrom name (calc_ndigits urls.length) 1 urls

/-! Helper lemmas on lists and characters. -/

theorem takeWhile_all {p : Char → Bool} {t : Str} (h : ∀ c ∈ t, p c = true) :
    t.takeWhile p = t := by
  induction t with
  | nil => rfl
  | cons c r ih =>
    have hc : p c = true := h c (by simp)
    simp [List.takeWhile_cons, hc, ih (fun a ha => h a (by simp [ha]))]

theorem takeWhile_all_append {p : Char → Bool} {t : Str} {c0 : Char} {r : Str}
    (h : ∀ c ∈ t, p c = true) (h0 : p c0 = false) :
    (t ++ c0 :: r).takeWhile p = t := by
  induction t with
  | nil => simp [List.takeWhile_cons, h0]
  | cons c tl ih =>
    have hc : p c = true := h c (by simp)
    simp [List.takeWhile_cons, hc, ih (fun a ha => h a (by simp [ha]))]

/-! Claim C2: the two `is_m3u8` overloads. -/

/-- C2 counterexample: the buffer overload of `is_m3u8` accepts the buffer
`"#EXTM3U8\nfoo"` although its first line is `#EXTM3U8`, not `#EXTM3U`;
the claim states that a first line of `#EXTM3U` followed by extra characters
is rejected for every input. -/
theorem C2_counterexample :
    is_m3u8_buffer (strLit "#EXTM3U8\nfoo") = true ∧
    firstLineOf (strLit "#EXTM3U8\nfoo") ≠ EXTM3U := by decide

/-- C2 amended: the file overload of `is_m3u8` returns true iff the first
line of the content is exactly `#EXTM3U`; the buffer overload returns true
iff the first seven bytes of the buffer are `#EXTM3U`, regardless of what
follows on the same line; `parse_m3u8` accepts iff the full first line is
exactly `#EXTM3U`. -/
theorem C2_amended :
    (∀ content : Str, is_m3u8_file content = true ↔
      content = EXTM3U ∨ ∃ rest, content = EXTM3U ++ '\n' :: rest) ∧
    (∀ buffer : Str, is_m3u8_buffer buffer = true ↔ ∃ rest, buffer = EXTM3U ++ rest) ∧
    (∀ lines : List Str, (parse_m3u8 lines).error = false ↔ lines.head? = some EXTM3U) := by
  refine ⟨fun content => ?_, fun buffer => ?_, fun lines => ?_⟩
  · constructor
    · intro h
      have h1 : firstLineOf content = EXTM3U := by
        simpa [is_m3u8_file] using h
      have hsplit := List.takeWhile_append_dropWhile
        (p := fun c => decide (c ≠ '\n')) (l := content)
      cases hd : content.dropWhile (fun c => decide (c ≠ '\n')) with
      | nil =>
        left
        rw [← hsplit, hd, List.append_nil]
        exact h1
      | cons c d =>
        right
        have hc := List.head?_dropWhile_not (fun c => decide (c ≠ '\n')) content
        rw [hd] at hc
        simp only [List.head?_cons] at hc
        have hc' : c = '\n' := by simpa using hc
        refine ⟨d, ?_⟩
        rw [← hsplit, hd, hc']
        rw [firstLineOf] at h1
        rw [h1]
    · intro h
      rcases h with h | ⟨rest, h⟩
      · subst h
        decide
      · subst h
        have : firstLineOf (EXTM3U ++ '\n' :: rest) = EXTM3U :=
          takeWhile_all_append (by decide) (by decide)
        simp [is_m3u8_file, this]
  · constructor
    · intro h
      rw [is_m3u8_buffer] at h
      split at h
      · exact absurd h (by simp)
      · rename_i hlen
        refine ⟨buffer.drop EXTM3U.length, ?_⟩
        have htake : buffer.take EXTM3U.length = EXTM3U := by simpa using h
        conv_lhs => rw [← List.take_append_drop EXTM3U.length buffer]
        rw [htake]
    · rintro ⟨rest, h⟩
      subst h
      have hlen : ¬ (EXTM3U ++ rest).length < EXTM3U.length := by
        simp [List.length_append]
      rw [is_m3u8_buffer, if_neg hlen]
      simp [List.take_append_of_le_length (Nat.le_refl _)]
  · cases lines with
    | nil => simp [parse_m3u8]
    | cons first rest =>
      rw [parse_m3u8]
      by_cases h : first = EXTM3U
      · simp [h]
      · simp [h]

/-! Claim C7: the absolute-url predicate. -/

/-- ASCII letter, the character class `[a-zA-Z]` of the claim. -/
def asciiAlpha (c : Char) : Bool :=
  ('a' ≤ c && c ≤ 'z') || ('A' ≤ c && c ≤ 'Z')

/-- Predicate stated by the claim for comparison: a match of the regular
expression `^[a-zA-Z]{3,5}://`, i.e. three to five ASCII letters followed by
`://` as a prefix of the string. -/
def claim_absolute_url (u : Str) : Bool :=
  [3, 4, 5].any (fun k =>
    (u.take k).length = k && (u.take k).all asciiAlpha &&
    startsWith (strLit "://") (u.drop k))

/-- C7 counterexample: the source predicate uses the ECMAScript class `\w`,
which also matches digits and underscore, so `is_absolute_url` holds on
`"123://x"` although the claimed regular expression `^[a-zA-Z]{3,5}://` does
not match it. -/
theorem C7_counterexample :
    is_absolute_url (strLit "123://x") = true ∧
    claim_absolute_url (strLit "123://x") = false := by decide

theorem startsWith_iff {p s : Str} : startsWith p s = true ↔ ∃ t, s = p ++ t := by
  rw [startsWith, List.isPrefixOf_iff_prefix]
  constructor
  · rintro ⟨t, rfl⟩
    exact ⟨t, rfl⟩
  · rintro ⟨t, rfl⟩
    exact ⟨t, rfl⟩

/-- C7 amended: `is_absolute_url u` holds iff `u` decomposes as a scheme of
three to five word characters (ASCII letters, digits or underscore, the
ECMAScript class `\w`), followed by the literal `://`, followed by a
remainder free of line terminators (the full-match `.*$` cannot cross a line
terminator). -/
theorem C7_amended (u : Str) :
    is_absolute_url u = true ↔
      ∃ p s, u = p ++ strLit "://" ++ s ∧ 3 ≤ p.length ∧ p.length ≤ 5 ∧
        (∀ c ∈ p, wordChar c = true) ∧ (∀ c ∈ s, lineTerm c = false) := by
  rw [is_absolute_url, List.any_eq_true]
  constructor
  · rintro ⟨k, hk, h⟩
    simp only [Bool.and_eq_true] at h
    obtain ⟨⟨⟨hlen, hword⟩, hmid⟩, htail⟩ := h
    have hlen' : (u.take k).length = k := of_decide_eq_true hlen
    rcases startsWith_iff.mp hmid with ⟨t, ht⟩
    have hdd : (u.drop k).drop 3 = u.drop (k + 3) := List.drop_drop 3 k u
    have htt : t = u.drop (k + 3) := by
      have h1 : (u.drop k).drop 3 = t := by
        rw [ht]
        simp [strLit]
      rw [← hdd, h1]
    refine ⟨u.take k, u.drop (k + 3), ?_, ?_, ?_, ?_, ?_⟩
    · conv_lhs => rw [← List.take_append_drop k u, ht, htt]
      simp [strLit]
    · rw [hlen']
      simp only [List.mem_cons, List.not_mem_nil, or_false] at hk
      rcases hk with h | h | h <;> omega
    · rw [hlen']
      simp only [List.mem_cons, List.not_mem_nil, or_false] at hk
      rcases hk with h | h | h <;> omega
    · intro c hc
      exact List.all_eq_true.mp hword c hc
    · intro c hc
      have := List.all_eq_true.mp htail c hc
      simpa using this
  · rintro ⟨p, s, rfl, h3, h5, hword, hterm⟩
    refine ⟨p.length, ?_, ?_⟩
    · simp only [List.mem_cons, List.not_mem_nil, or_false]
      omega
    · have htake : (p ++ strLit "://" ++ s).take p.length = p := by
        rw [List.append_assoc, List.take_append_of_le_length (Nat.le_refl _), List.take_length]
      have hdrop : (p ++ strLit "://" ++ s).drop p.length = strLit "://" ++ s := by
        rw [List.append_assoc, List.drop_append_of_le_length (Nat.le_refl _), List.drop_length]
        simp
      have hdrop3 : (p ++ strLit "://" ++ s).drop (p.length + 3) = s := by
        have hdd : ((p ++ strLit "://" ++ s).drop p.length).drop 3
            = (p ++ strLit "://" ++ s).drop (p.length + 3) :=
          List.drop_drop 3 p.length _
        rw [← hdd, hdrop]
        simp [strLit]
      simp only [Bool.and_eq_true]
      refine ⟨⟨⟨?_, ?_⟩, ?_⟩, ?_⟩
      · rw [htake]
        simp
      · rw [htake]
        exact List.all_eq_true.mpr hword
      · rw [hdrop]
        rw [startsWith_iff]
        exact ⟨s, rfl⟩
      · rw [hdrop3]
        refine List.all_eq_true.mpr ?_
        intro c hc
        simp [hterm c hc]

/-! Claim C6: url rebasing. -/

theorem keptLen_take (p : Str) :
    ∀ n, n ≤ p.length → p.take (keptLen p n) = (p.take n).rdropWhile (fun c => c = '/') := by
  intro n
  induction n with
  | zero => intro _; simp [keptLen, List.rdropWhile]
  | succ n ih =>
    intro hn
    have hn' : n < p.length := Nat.lt_of_succ_le hn
    have htake : p.take (n + 1) = p.take n ++ [p[n]] := by
      rw [← List.concat_eq_append]
      exact (List.take_concat_get p n hn').symm
    rw [keptLen, htake, List.rdropWhile_concat, List.getLast?_concat]
    by_cases hc : p[n] = '/'
    · simp only [hc, if_pos rfl, if_true]
      simpa using ih (Nat.le_of_lt hn')
    · have h1 : ¬ ((some (p[n]) : Option Char) = some '/') := by
        simpa using hc
      have h2 : ¬ (decide (p[n] = '/') = true) := by
        simpa using hc
      rw [if_neg h1, if_neg h2]
      exact htake

theorem eraseLeadingSlashes_eq (u : Str) :
    eraseLeadingSlashes u = u.dropWhile (fun c => c = '/') := by
  induction u with
  | nil => rfl
  | cons c rest ih =>
    by_cases hc : c = '/'
    · simp [eraseLeadingSlashes, List.dropWhile_cons, hc, ih]
    · simp [eraseLeadingSlashes, List.dropWhile_cons, hc]

/-- C6: after `set_baseurl b`, every url that the program classifies as
relative becomes the base stripped of all trailing slashes, a single `/`,
and the previous url stripped of all leading slashes, while absolute urls
are unchanged; and the concrete scenario of the claim holds:
`set_baseurl "https://s/"` maps `/path2` to `https://s/path2` and leaves
`https://server/path1` untouched. -/
theorem C6_set_baseurl :
    (∀ (urls : List urlprops_t) (base : Str),
      set_baseurl urls base = urls.map (fun up =>
        if is_absolute_url up.url then up
        else ⟨base.rdropWhile (fun c => c = '/') ++
                '/' :: up.url.dropWhile (fun c => c = '/'),
              up.properties⟩)) ∧
    set_baseurl
        [⟨strLit "https://server/path1", []⟩, ⟨strLit "/path2", []⟩,
         ⟨strLit "/path3/", []⟩] (strLit "https://s/")
      = [⟨strLit "https://server/path1", []⟩, ⟨strLit "https://s/path2", []⟩,
         ⟨strLit "https://s/path3/", []⟩] := by
  constructor
  · intro urls base
    have hk := keptLen_take base base.length (Nat.le_refl _)
    rw [List.take_length] at hk
    rw [set_baseurl]
    refine List.map_congr_left ?_
    intro up _
    by_cases ha : is_absolute_url up.url
    · simp [ha]
    · simp only [ha, Bool.false_eq_true, if_false, hk, eraseLeadingSlashes_eq]
  · decide

/-! Claim C8: the byte formatter. -/

theorem shorten_eq_B {n : Nat} (h : ¬ 1000 ≤ n) :
    shorten_bytes n = ((n : ℚ), strLit "B") := by
  simp [shorten_bytes, h]

theorem shorten_eq_KiB {n : Nat} (h1 : 1000 ≤ n) (h2 : ¬ 1000 ≤ n / 1024) :
    shorten_bytes n = ((n : ℚ) / 1024, strLit "KiB") := by
  simp [shorten_bytes, h1, h2]

theorem shorten_eq_MiB {n : Nat} (h1 : 1000 ≤ n) (h2 : 1000 ≤ n / 1024)
    (h3 : ¬ 1000 ≤ n / 1024 / 1024) :
    shorten_bytes n = ((n : ℚ) / 1024 ^ 2, strLit "MiB") := by
  simp [shorten_bytes, h1, h2, h3]

theorem shorten_eq_GiB {n : Nat} (h1 : 1000 ≤ n) (h2 : 1000 ≤ n / 1024)
    (h3 : 1000 ≤ n / 1024 / 1024) :
    shorten_bytes n = ((n : ℚ) / 1024 ^ 3, strLit "GiB") := by
  simp [shorten_bytes, h1, h2, h3]

/-- C8 counterexample: at `n = 1000·1024³` the quantity returned by
`shorten_bytes` is exactly 1000, which is not in the claimed interval
`[0, 1000)` (the source carries an `assert(sbytes < 1000)` that this input
violates). -/
theorem C8_counterexample :
    shorten_bytes (1000 * 1024 ^ 3) = ((1000 : ℚ), strLit "GiB") ∧
    ¬ ((1000 : ℚ) < 1000) := by
  constructor
  · rw [shorten_eq_GiB (by norm_num) (by norm_num) (by norm_num)]
    norm_num
  · norm_num

/-- C8 amended: for every byte count below `1000·1024³`, `shorten_bytes`
returns a unit among B/KiB/MiB/GiB and a quantity in `[0, 1000)` with
`quantity × 1024^k = n` for the unit's exponent `k`; beyond that bound the
unit stays GiB and the quantity reaches 1000 and more.  The concrete values
of the claim hold: `shorten_bytes 439376 = (429.078125, KiB)` and
`shorten_bytes 876 = (876, B)`. -/
theorem C8_amended :
    (∀ n : Nat, n < 1000 * 1024 ^ 3 →
      ((shorten_bytes n).2 = strLit "B" ∨ (shorten_bytes n).2 = strLit "KiB" ∨
       (shorten_bytes n).2 = strLit "MiB" ∨ (shorten_bytes n).2 = strLit "GiB") ∧
      0 ≤ (shorten_bytes n).1 ∧ (shorten_bytes n).1 < 1000 ∧
      (shorten_bytes n).1 * 1024 ^ unitExp (shorten_bytes n).2 = n) ∧
    shorten_bytes 439376 = ((429.078125 : ℚ), strLit "KiB") ∧
    shorten_bytes 876 = ((876 : ℚ), strLit "B") := by
  refine ⟨fun n hn => ?_, ?_, ?_⟩
  · by_cases h1 : 1000 ≤ n
    · by_cases h2 : 1000 ≤ n / 1024
      · by_cases h3 : 1000 ≤ n / 1024 / 1024
        · rw [shorten_eq_GiB h1 h2 h3]
          dsimp only
          have hq : (0 : ℚ) ≤ (n : ℚ) / 1024 ^ 3 := by positivity
          have hlt : (n : ℚ) / 1024 ^ 3 < 1000 := by
            rw [div_lt_iff₀ (by norm_num)]
            exact_mod_cast hn
          refine ⟨Or.inr (Or.inr (Or.inr rfl)), hq, hlt, ?_⟩
          have hexp : unitExp (strLit "GiB") = 3 := by decide
          rw [hexp]
          field_simp
        · rw [shorten_eq_MiB h1 h2 h3]
          dsimp only
          have hnn : n < 1000 * 1024 ^ 2 := by
            have hlt0 := Nat.lt_of_not_le h3
            rw [Nat.div_div_eq_div_mul] at hlt0
            have hlt1 := (Nat.div_lt_iff_lt_mul (by norm_num : 0 < 1024 * 1024)).mp hlt0
            calc n < 1000 * (1024 * 1024) := hlt1
            _ = 1000 * 1024 ^ 2 := by ring
          have hq : (0 : ℚ) ≤ (n : ℚ) / 1024 ^ 2 := by positivity
          have hlt : (n : ℚ) / 1024 ^ 2 < 1000 := by
            rw [div_lt_iff₀ (by norm_num)]
            exact_mod_cast hnn
          refine ⟨Or.inr (Or.inr (Or.inl rfl)), hq, hlt, ?_⟩
          have hexp : unitExp (strLit "MiB") = 2 := by decide
          rw [hexp]
          field_simp
      · rw [shorten_eq_KiB h1 h2]
        dsimp only
        have hnn : n < 1000 * 1024 := by
          have hlt0 := Nat.lt_of_not_le h2
          exact (Nat.div_lt_iff_lt_mul (by norm_num : 0 < 1024)).mp hlt0
        have hq : (0 : ℚ) ≤ (n : ℚ) / 1024 := by positivity
        have hlt : (n : ℚ) / 1024 < 1000 := by
          rw [div_lt_iff₀ (by norm_num)]
          exact_mod_cast hnn
        refine ⟨Or.inr (Or.inl rfl), hq, hlt, ?_⟩
        have hexp : unitExp (strLit "KiB") = 1 := by decide
        rw [hexp]
        field_simp
    · rw [shorten_eq_B h1]
      dsimp only
      have hn' : n < 1000 := Nat.lt_of_not_le h1
      refine ⟨Or.inl rfl, by positivity, by exact_mod_cast hn', ?_⟩
      have hexp : unitExp (strLit "B") = 0 := by decide
      rw [hexp]
      simp
  · rw [shorten_eq_KiB (by norm_num) (by norm_num)]
    norm_num
  · rw [shorten_eq_B (by norm_num)]
    norm_num

/-- C8 witness: the amended theorem applied at the in-range input 876. -/
theorem C8_amended_witness :
    876 < 1000 * 1024 ^ 3 ∧
    (shorten_bytes 876).1 * 1024 ^ unitExp (shorten_bytes 876).2 = (876 : ℚ) :=
  ⟨by norm_num, (C8_amended.1 876 (by norm_num)).2.2.2⟩

/-! Claim C9: the derived segment filenames. -/

theorem ndigitsAux_spec (n : Nat) :
    ∀ fuel d, n ≤ 10 ^ (d + fuel) →
      d ≤ ndigitsAux n fuel d ∧ n ≤ 10 ^ ndigitsAux n fuel d ∧
      ∀ e, d ≤ e → n ≤ 10 ^ e → ndigitsAux n fuel d ≤ e := by
  intro fuel
  induction fuel with
  | zero =>
    intro d hd
    simp only [ndigitsAux]
    exact ⟨Nat.le_refl d, by simpa using hd, fun e he _ => he⟩
  | succ fuel ih =>
    intro d hd
    rw [ndigitsAux]
    by_cases hlt : 10 ^ d < n
    · rw [if_pos hlt]
      have hfuel : n ≤ 10 ^ (d + 1 + fuel) := by
        have : d + 1 + fuel = d + (fuel + 1) := by ring
        rw [this]
        exact hd
      obtain ⟨h1, h2, h3⟩ := ih (d + 1) hfuel
      refine ⟨Nat.le_trans (Nat.le_succ d) h1, h2, ?_⟩
      intro e he hne
      have he' : d + 1 ≤ e := by
        rcases Nat.lt_or_ge d e with h | h
        · exact h
        · exfalso
          have : (10 : Nat) ^ e ≤ 10 ^ d := Nat.pow_le_pow_right (by norm_num) h
          omega
      exact h3 e he' hne
    · rw [if_neg hlt]
      exact ⟨Nat.le_refl d, Nat.le_of_not_lt hlt, fun e he _ => he⟩

theorem calc_ndigits_spec (n : Nat) :
    1 ≤ calc_ndigits n ∧ n ≤ 10 ^ calc_ndigits n ∧
      ∀ e, 1 ≤ e → n ≤ 10 ^ e → calc_ndigits n ≤ e := by
  have hfuel : n ≤ 10 ^ (1 + n) := by
    have h1 : n < 10 ^ n := Nat.lt_pow_self (by norm_num) n
    have h2 : (10 : Nat) ^ n ≤ 10 ^ (1 + n) :=
      Nat.pow_le_pow_right (by norm_num) (by omega)
    omega
  exact ndigitsAux_spec n n 1 hfuel

theorem buildFrom_getElem? (name : Str) (w : Nat) :
    ∀ (urls : List Str) (j i : Nat),
      (buildFrom name w j urls)[i]? =
        urls[i]?.map (fun u => (segname name (j + i) w, u)) := by
  intro urls
  induction urls with
  | nil => intro j i; simp [buildFrom]
  | cons u rest ih =>
    intro j i
    cases i with
    | zero => simp [buildFrom]
    | succ i =>
      rw [buildFrom]
      have : j + (i + 1) = (j + 1) + i := by ring
      simp only [List.getElem?_cons_succ, ih (j + 1) i, this]

/-- Padding width stated by the claim, `⌈log₁₀(N + 1)⌉`: the least `d` with
`N + 1 ≤ 10^d`. -/
def claim_pad_width (n : Nat) : Nat := ndigitsAux (n + 1) (n + 1) 0

/-- C9 counterexample: for a playlist of `N = 10` urls the code computes
padding width 1 (the loop `while(pow(10, ndigits) < N)` never runs because
`10 ≮ 10`), not the claimed `⌈log₁₀(11)⌉ = 2`; the first segment is named
`name-1-v1-a1.ts`, not `name-01-v1-a1.ts`. -/
theorem C9_counterexample :
    calc_ndigits 10 = 1 ∧ claim_pad_width 10 = 2 ∧
    (buildPathUrls (strLit "name") (List.replicate 10 (strLit "u")))[0]? =
      some (strLit "name-1-v1-a1.ts", strLit "u") ∧
    strLit "name-1-v1-a1.ts" ≠ strLit "name-01-v1-a1.ts" := by decide

/-- C9 amended: the padding width of the derived segment filenames is the
least `d ≥ 1` with `N ≤ 10^d` (this equals `⌈log₁₀(N+1)⌉` except when `N` is
a power of ten, e.g. width 1 for `N = 10`), and the `i`-th work item (0-based
`i`) pairs the `i`-th url with the filename
`name-<i+1 zero-padded to that width>-v1-a1.ts`. -/
theorem C9_amended :
    (∀ n : Nat, 1 ≤ calc_ndigits n ∧ n ≤ 10 ^ calc_ndigits n ∧
      ∀ e, 1 ≤ e → n ≤ 10 ^ e → calc_ndigits n ≤ e) ∧
    (∀ (name : Str) (urls : List Str) (i : Nat),
      (buildPathUrls name urls)[i]? =
        urls[i]?.map (fun u => (segname name (i + 1) (calc_ndigits urls.length), u))) := by
  constructor
  · exact calc_ndigits_spec
  · intro name urls i
    rw [buildPathUrls, buildFrom_getElem?]
    have : 1 + i = i + 1 := by ring
    rw [this]

/-- C9 witness: minimality of the computed width, applied at `N = 10`,
`e = 2`. -/
theorem C9_amended_witness :
    (1 : Nat) ≤ 2 ∧ (10 : Nat) ≤ 10 ^ 2 ∧ calc_ndigits 10 ≤ 2 :=
  ⟨by norm_num, by norm_num, (C9_amended.1 10).2.2 2 (by norm_num) (by norm_num)⟩

/-! Claim C10: merging of pending properties across directive lines. -/

/-- Property map a single directive line contributes, by the dispatch order
of the parse loop. -/
def linePropsOf (d : Str) : PropMap :=
  if startsWith (strLit "#EXT-X-STREAM-INF:") d then parse_extxstreaminfo d
  else parse_extinf d

/-- Pending property map accumulated over a run of directive lines. -/
def mergedProps (pending : PropMap) (ds : List Str) : PropMap :=
  ds.foldl (fun acc d => mapMergeAssign acc (linePropsOf d)) pending

theorem startsWith_mono {p q s : Str} (h : startsWith (p ++ q) s = true) :
    startsWith p s = true := by
  rw [startsWith, List.isPrefixOf_iff_prefix] at h ⊢
  rcases h with ⟨t, rfl⟩
  exact ⟨q ++ t, by simp⟩

theorem parseBody_urls_congr :
    ∀ (lines : List Str) (pending : PropMap) (m p m' p' : Bool),
      (parseBody lines pending m p).1 = (parseBody lines pending m' p').1 := by
  intro lines
  induction lines with
  | nil => intro pending m p m' p'; rfl
  | cons line rest ih =>
    intro pending m p m' p'
    rw [parseBody, parseBody]
    by_cases h1 : startsWith (strLit "#EXT-X-STREAM-INF:") line = true
    · simp only [if_pos h1]
      exact ih _ _ _ _ _
    · simp only [if_neg h1]
      by_cases h2 : startsWith (strLit "#EXTINF:") line = true
      · simp only [if_pos h2]
        exact ih _ _ _ _ _
      · simp only [if_neg h2]
        by_cases h3 : ¬ startsWith (strLit "#") line = true ∧ line ≠ []
        · simp only [if_pos h3]
          simp only [ih [] m p m' p']
        · simp only [if_neg h3]
          by_cases h4 : line = []
          · simp only [if_pos h4]
            exact ih _ _ _ _ _
          · simp only [if_neg h4]
            exact ih _ _ _ _ _

theorem mapFind?_cons (k0 v0 : Str) (l : PropMap) (k : Str) :
    mapFind? ((k0, v0) :: l) k = if k0 = k then some v0 else mapFind? l k := by
  by_cases h : k0 = k <;> simp [mapFind?, List.find?, h]

theorem mapAssign_find? (m : PropMap) (k' v k : Str) :
    mapFind? (mapAssign m k' v) k =
      if k' = k then some v else mapFind? m k := by
  induction m with
  | nil =>
    by_cases h : k' = k <;> simp [mapAssign, mapFind?, List.find?, h]
  | cons kv rest ih =>
    obtain ⟨k0, v0⟩ := kv
    rw [mapAssign]
    by_cases h0 : k0 = k'
    · rw [if_pos h0]
      subst h0
      rw [mapFind?_cons, mapFind?_cons]
      by_cases h : k0 = k <;> simp [h]
    · rw [if_neg h0]
      rw [mapFind?_cons, mapFind?_cons, ih]
      by_cases h : k0 = k
      · have hk : ¬ k' = k := by
          rw [← h]
          exact fun hh => h0 hh.symm
        simp [h, hk]
      · simp [h]

theorem foldl_assign_find? :
    ∀ (ps : PropMap) (m : PropMap) (k : Str),
      mapFind? (ps.foldl (fun acc kv => mapAssign acc kv.1 kv.2) m) k =
        (ps.reverse.findSome? (fun kv => if kv.1 = k then some kv.2 else none)).or
          (mapFind? m k) := by
  intro ps
  induction ps with
  | nil => intro m k; simp
  | cons kv ps ih =>
    intro m k
    rw [List.foldl_cons, ih, List.reverse_cons, List.findSome?_append, Option.or_assoc]
    congr 1
    rw [mapAssign_find?]
    by_cases h : kv.1 = k <;> simp [List.findSome?, h]

/-- Skipping a run of directive lines merges their parsed maps into the
pending map. -/
theorem parseBody_skip :
    ∀ (ds : List Str),
      (∀ d ∈ ds, startsWith (strLit "#EXT-X-STREAM-INF:") d = true ∨
        startsWith (strLit "#EXTINF:") d = true) →
      ∀ (tail : List Str) (pending : PropMap) (m p : Bool),
        (parseBody (ds ++ tail) pending m p).1 =
          (parseBody tail (mergedProps pending ds) false false).1 := by
  intro ds
  induction ds with
  | nil =>
    intro _ tail pending m p
    rw [mergedProps]
    simp only [List.nil_append, List.foldl_nil]
    exact parseBody_urls_congr tail pending m p false false
  | cons d ds ih =>
    intro hds tail pending m p
    have hd := hds d (by simp)
    have hds' : ∀ x ∈ ds, startsWith (strLit "#EXT-X-STREAM-INF:") x = true ∨
        startsWith (strLit "#EXTINF:") x = true :=
      fun x hx => hds x (by simp [hx])
    rw [List.cons_append, parseBody]
    by_cases hs : startsWith (strLit "#EXT-X-STREAM-INF:") d = true
    · rw [if_pos hs, ih hds']
      have : mergedProps (mapMergeAssign pending (parse_extxstreaminfo d)) ds =
          mergedProps pending (d :: ds) := by
        rw [mergedProps, mergedProps, List.foldl_cons, linePropsOf, if_pos hs]
      rw [this]
    · rw [if_neg hs]
      have he : startsWith (strLit "#EXTINF:") d = true := by tauto
      rw [if_pos he, ih hds']
      have : mergedProps (mapMergeAssign pending (parse_extinf d)) ds =
          mergedProps pending (d :: ds) := by
        rw [mergedProps, mergedProps, List.foldl_cons, linePropsOf, if_neg hs]
      rw [this]

/-- C10: several `#EXT-X-STREAM-INF` and/or `#EXTINF` lines before a url line
merge their attributes into one pending map, a later line's value for a key
overwriting an earlier line's; the merged map is attached to the next url
line, after which the pending map is reset; an empty line also resets the
pending map.  The lookup in the merged map is expressed over the entries of
the parsed per-line maps: the last assigned entry of a key wins, falling back
to the previously pending value. -/
theorem C10_pending_merge (ds : List Str) (url : Str) (rest : List Str)
    (pending : PropMap) (m p : Bool)
    (hds : ∀ d ∈ ds, startsWith (strLit "#EXT-X-STREAM-INF:") d = true ∨
      startsWith (strLit "#EXTINF:") d = true)
    (hurl : startsWith (strLit "#") url = false) (hne : url ≠ []) :
    ((parseBody (ds ++ url :: rest) pending m p).1 =
      ⟨url, mergedProps pending ds⟩ :: (parseBody rest [] false false).1) ∧
    (∀ k, mapFind? (mergedProps pending ds) k =
      (((ds.map linePropsOf).flatten.reverse.findSome?
          (fun kv => if kv.1 = k then some kv.2 else none)).or (mapFind? pending k))) ∧
    ((parseBody (ds ++ [] :: url :: rest) pending m p).1 =
      ⟨url, []⟩ :: (parseBody rest [] false false).1) := by
  have hsw : ∀ q : Str, startsWith (strLit "#" ++ q) url = false := by
    intro q
    cases h : startsWith (strLit "#" ++ q) url
    · rfl
    · exact absurd (startsWith_mono h) (by simp [hurl])
  have hstep : ∀ pend : PropMap, (parseBody (url :: rest) pend false false).1 =
      ⟨url, pend⟩ :: (parseBody rest [] false false).1 := by
    intro pend
    rw [parseBody]
    have h1 : startsWith (strLit "#EXT-X-STREAM-INF:") url = false := by
      have := hsw (strLit "EXT-X-STREAM-INF:")
      simpa [strLit] using this
    have h2 : startsWith (strLit "#EXTINF:") url = false := by
      have := hsw (strLit "EXTINF:")
      simpa [strLit] using this
    rw [h1]
    simp only [Bool.false_eq_true, if_false]
    rw [h2]
    simp only [Bool.false_eq_true, if_false]
    rw [if_pos ⟨by simp [hurl], hne⟩]
  refine ⟨?_, ?_, ?_⟩
  · rw [parseBody_skip ds hds, hstep]
  · intro k
    rw [mergedProps]
    have hflat : ds.foldl (fun acc d => mapMergeAssign acc (linePropsOf d)) pending =
        (ds.map linePropsOf).flatten.foldl
          (fun acc kv => mapAssign acc kv.1 kv.2) pending := by
      rw [List.foldl_flatten]
      induction ds generalizing pending with
      | nil => rfl
      | cons d ds ihd =>
        rw [List.foldl_cons, List.map_cons, List.foldl_cons]
        exact ihd _ (fun x hx => hds x (by simp [hx]))
    rw [hflat, foldl_assign_find?]
  · rw [parseBody_skip ds hds]
    have hempty : (parseBody ([] :: url :: rest) (mergedProps pending ds) false false).1 =
        (parseBody (url :: rest) ([] : PropMap) false false).1 := by
      rw [parseBody]
      have h0 : ∀ q : Str, q ≠ [] → startsWith q ([] : Str) = false := by
        intro q hq
        cases q with
        | nil => exact absurd rfl hq
        | cons a b => rfl
      rw [h0 _ (by decide), h0 _ (by decide)]
      simp only [Bool.false_eq_true, if_false]
      have : ¬ (¬ startsWith (strLit "#") ([] : Str) = true ∧ ([] : Str) ≠ []) := by
        simp
      rw [if_neg this]
      simp
    rw [hempty, hstep]

/-- C10 witness: two stream-inf lines both setting key `A`; the merged
pending map holds the later line's value. -/
theorem C10_pending_merge_witness :
    (∀ d ∈ ([strLit "#EXT-X-STREAM-INF:A=1",
              strLit "#EXT-X-STREAM-INF:A=2,B=3"] : List Str),
        startsWith (strLit "#EXT-X-STREAM-INF:") d = true ∨
        startsWith (strLit "#EXTINF:") d = true) ∧
    mapFind? (mergedProps []
        [strLit "#EXT-X-STREAM-INF:A=1", strLit "#EXT-X-STREAM-INF:A=2,B=3"])
      (strLit "A") = some (strLit "2") :=
  ⟨by decide, by
    have h := C10_pending_merge
      [strLit "#EXT-X-STREAM-INF:A=1", strLit "#EXT-X-STREAM-INF:A=2,B=3"]
      (strLit "u") [] [] false false (by decide) (by decide) (by decide)
    rw [h.2.1 (strLit "A")]
    decide⟩

/-! Claim C5: the attribute tokenizer/parser round trip.  An attribute list
is modelled abstractly as a list of key/value pairs, each value optionally
double-quoted, and rendered to the comma-separated info string that the
tokenizer receives. -/

/-- An abstract attribute of a comma-separated attribute list. -/
structure attrTok where
  key : Str
  value : Str
  quoted : Bool
deriving DecidableEq, Repr

/-- Rendering of one attribute to its `KEY=VALUE` text. -/
def renderTok (a : attrTok) : Str :=
  a.key ++ '=' :: (if a.quoted then '"' :: a.value ++ ['"'] else a.value)

/-- Rendering of an attribute list to the comma-separated info string. -/
def renderAttrs : List attrTok → Str
  | [] => []
  | [a] => renderTok a
  | a :: rest => renderTok a ++ ',' :: renderAttrs rest

/-- Well-formedness of an attribute: the key is free of commas, quotes and
`=`; a quoted value is free of quotes and, when it contains commas, the
pieces between commas are non-empty; an unquoted value is free of commas
and quotes. -/
def wfAttr (a : attrTok) : Bool :=
  a.key.all (fun c => c ≠ ',' && c ≠ '"' && c ≠ '=') &&
  (if a.quoted then
    a.value.all (fun c => c ≠ '"') &&
    ((splitDelim ',' a.value).length = 1 ||
      (splitDelim ',' a.value).all (fun p => ¬ p.isEmpty))
  else a.value.all (fun c => c ≠ ',' && c ≠ '"'))

/-- C5 counterexample: keys are not uppercased: parsing `key=1` yields the
key `key` verbatim, and the lookup of `KEY` fails. -/
theorem C5_counterexample :
    mapFind? (parse_properties (tokenize_properties (strLit "key=1")))
      (strLit "KEY") = none ∧
    mapFind? (parse_properties (tokenize_properties (strLit "key=1")))
      (strLit "key") = some (strLit "1") := by decide

/-- Last-element modification, as the reassembled final token of a split
quoted value. -/
def modLast (f : Str → Str) : List Str → List Str
  | [] => []
  | [x] => [f x]
  | x :: xs => x :: modLast f xs

/-- Joining the pieces of a split back with the delimiter. -/
def joinDelim (d : Char) : List Str → Str
  | [] => []
  | [p] => p
  | p :: ps => p ++ d :: joinDelim d ps

theorem modLast_cons_of_ne_nil (f : Str → Str) (x : Str) {l : List Str}
    (h : l ≠ []) : modLast f (x :: l) = x :: modLast f l := by
  cases l with
  | nil => exact absurd rfl h
  | cons y ys => rfl

theorem joinDelim_cons_of_ne_nil (d : Char) (p : Str) {ps : List Str}
    (h : ps ≠ []) : joinDelim d (p :: ps) = p ++ d :: joinDelim d ps := by
  cases ps with
  | nil => exact absurd rfl h
  | cons y ys => rfl

theorem joinDelim_splitDelim (d : Char) (s : Str) :
    joinDelim d (splitDelim d s) = s := by
  induction s with
  | nil => rfl
  | cons c s ih =>
    rw [splitDelim]
    by_cases hc : c = d
    · rw [if_pos hc, joinDelim_cons_of_ne_nil d [] (splitDelim_ne_nil d s), ih, hc]
      rfl
    · rw [if_neg hc]
      cases hs : splitDelim d s with
      | nil => exact absurd hs (splitDelim_ne_nil d s)
      | cons h t =>
        cases t with
        | nil =>
          rw [hs] at ih
          simp only [joinDelim] at ih ⊢
          rw [ih]
        | cons h2 t2 =>
          rw [hs] at ih
          rw [joinDelim_cons_of_ne_nil d (c :: h) (by simp),
              joinDelim_cons_of_ne_nil d h (by simp)] at *
          simp only [List.cons_append]
          rw [ih]

theorem splitDelim_prepend (d : Char) (a y : Str) (h : ∀ c ∈ a, c ≠ d) :
    splitDelim d (a ++ y) = List.modifyHead (fun x => a ++ x) (splitDelim d y) := by
  induction a with
  | nil =>
    cases hs : splitDelim d y with
    | nil => exact absurd hs (splitDelim_ne_nil d y)
    | cons p t => simp [hs]
  | cons c a ih =>
    have hc : c ≠ d := h c (by simp)
    have ha : ∀ x ∈ a, x ≠ d := fun x hx => h x (by simp [hx])
    rw [List.cons_append, splitDelim, if_neg hc, ih ha]
    cases hs : splitDelim d y with
    | nil => exact absurd hs (splitDelim_ne_nil d y)
    | cons p t => simp [hs]

theorem splitDelim_concat (d : Char) (y b : Str) (h : ∀ c ∈ b, c ≠ d) :
    splitDelim d (y ++ b) = modLast (fun x => x ++ b) (splitDelim d y) := by
  induction y with
  | nil =>
    rw [List.nil_append, splitDelim_no_delim d b h]
    rfl
  | cons c y ih =>
    rw [List.cons_append, splitDelim, splitDelim]
    by_cases hc : c = d
    · rw [if_pos hc, if_pos hc, ih,
        modLast_cons_of_ne_nil _ [] (splitDelim_ne_nil d y)]
    · rw [if_neg hc, if_neg hc, ih]
      cases hs : splitDelim d y with
      | nil => exact absurd hs (splitDelim_ne_nil d y)
      | cons p t =>
        cases t with
        | nil => rfl
        | cons p2 t2 =>
          rw [modLast_cons_of_ne_nil _ p (by simp)]
          rw [modLast_cons_of_ne_nil _ (c :: p) (by
            cases hmt : modLast (fun x => x ++ b) (p2 :: t2) with
            | nil =>
              cases t2 <;> simp [modLast] at hmt
            | cons q u => simp)]

/-- Pieces of a rendered token as the comma tokenizer returns them: an
unquoted token is unsplit; a quoted token splits at the commas of its value,
with the key, `="` and trailing quote attached to the first and last piece. -/
def tokPieces (a : attrTok) : List Str :=
  if a.quoted then
    List.modifyHead (fun x => a.key ++ '=' :: '"' :: x)
      (modLast (fun x => x ++ ['"']) (splitDelim ',' a.value))
  else [renderTok a]

theorem endsWithQuote_concat (x : Str) : endsWithQuote (x ++ ['"']) = true := by
  simp [endsWithQuote, List.getLast?_concat]

theorem endsWithQuote_false {p : Str} (h1 : p ≠ []) (h2 : ∀ c ∈ p, c ≠ '"') :
    endsWithQuote p = false := by
  rw [endsWithQuote]
  cases hl : p.getLast? with
  | none =>
    exact absurd (by simpa using hl) h1
  | some c =>
    have hc : c ≠ '"' := h2 c (List.mem_of_mem_getLast? hl)
    simp [hc]

theorem countQuotes_eq_zero {t : Str} (h : ∀ c ∈ t, c ≠ '"') :
    countQuotes t = 0 :=
  List.count_eq_zero.mpr (fun hmem => h _ hmem rfl)

theorem mem_of_mem_splitDelim (d : Char) :
    ∀ (s : Str), ∀ p ∈ splitDelim d s, ∀ c ∈ p, c ∈ s := by
  intro s
  induction s with
  | nil =>
    intro p hp c hc
    simp [splitDelim] at hp
    subst hp
    simp at hc
  | cons a s ih =>
    intro p hp c hc
    rw [splitDelim] at hp
    by_cases ha : a = d
    · rw [if_pos ha] at hp
      rcases List.mem_cons.mp hp with h | h
      · subst h; simp at hc
      · exact List.mem_cons_of_mem a (ih p h c hc)
    · rw [if_neg ha] at hp
      cases hs : splitDelim d s with
      | nil => exact absurd hs (splitDelim_ne_nil d s)
      | cons q t =>
        rw [hs] at hp
        rcases List.mem_cons.mp hp with h | h
        · subst h
          rcases List.mem_cons.mp hc with h | h
          · simp [h]
          · exact List.mem_cons_of_mem a (ih q (by rw [hs]; simp) c h)
        · exact List.mem_cons_of_mem a (ih p (by rw [hs]; simp [h]) c hc)

theorem mem_modLast (f : Str → Str) :
    ∀ (l : List Str), ∀ q ∈ modLast f l, q ∈ l ∨ ∃ p ∈ l, q = f p := by
  intro l
  induction l with
  | nil => intro q hq; simp [modLast] at hq
  | cons x xs ih =>
    intro q hq
    cases xs with
    | nil =>
      simp only [modLast, List.mem_singleton] at hq
      exact Or.inr ⟨x, by simp, hq⟩
    | cons y ys =>
      rw [modLast_cons_of_ne_nil f x (by simp)] at hq
      rcases List.mem_cons.mp hq with h | h
      · exact Or.inl (by simp [h])
      · rcases ih q h with h1 | ⟨p, hp, hfp⟩
        · exact Or.inl (List.mem_cons_of_mem x h1)
        · exact Or.inr ⟨p, List.mem_cons_of_mem x hp, hfp⟩

theorem fix_absorb :
    ∀ (vs : List Str) (rest : List Str) (quot : Str), vs ≠ [] → quot ≠ [] →
      (∀ p ∈ vs, p ≠ [] ∧ ∀ c ∈ p, c ≠ '"') →
      fixTokens (modLast (fun x => x ++ ['"']) vs ++ rest) quot =
        (quot ++ ',' :: joinDelim ',' vs ++ ['"']) :: fixTokens rest [] := by
  intro vs
  induction vs with
  | nil => intro _ _ h; exact absurd rfl h
  | cons v vs ih =>
    intro rest quot _ hquot hvs
    cases vs with
    | nil =>
      simp only [modLast, List.cons_append, List.nil_append]
      rw [fixTokens, if_pos (by simpa using hquot), if_pos (endsWithQuote_concat v)]
      simp [joinDelim]
    | cons v2 vs2 =>
      rw [modLast_cons_of_ne_nil _ v (by simp), List.cons_append, fixTokens,
        if_pos (by simpa using hquot)]
      have hv := hvs v (by simp)
      rw [if_neg (by simp [endsWithQuote_false hv.1 hv.2])]
      rw [ih rest (quot ++ ',' :: v) (by simp) (by simp)
        (fun p hp => hvs p (by simp [hp]))]
      rw [joinDelim_cons_of_ne_nil ',' v (by simp)]
      simp

theorem tokenize_renderTok (a : attrTok) (hwf : wfAttr a = true) :
    tokenize (renderTok a) ',' = tokPieces a ∧ tokPieces a ≠ [] := by
  rw [wfAttr, Bool.and_eq_true] at hwf
  obtain ⟨hkey, hval⟩ := hwf
  have hkey' : ∀ c ∈ a.key, c ≠ ',' ∧ c ≠ '"' ∧ c ≠ '=' := by
    intro c hc
    have := List.all_eq_true.mp hkey c hc
    simp only [Bool.and_eq_true, decide_eq_true_eq] at this
    tauto
  by_cases hq : a.quoted
  · rw [if_pos hq] at hval
    rw [Bool.and_eq_true] at hval
    obtain ⟨hqfree, hpieces⟩ := hval
    have hqfree' : ∀ c ∈ a.value, c ≠ '"' := by
      intro c hc
      simpa using List.all_eq_true.mp hqfree c hc
    have hrend : renderTok a = (a.key ++ ['=', '"']) ++ (a.value ++ ['"']) := by
      rw [renderTok, if_pos hq]
      simp
    have hsplit : splitDelim ',' (renderTok a) = tokPieces a := by
      rw [hrend, splitDelim_prepend ',' _ _ (by
        intro c hc
        rcases List.mem_append.mp hc with h | h
        · exact (hkey' c h).1
        · simp at h
          rcases h with h | h <;> simp [h])]
      rw [splitDelim_concat ',' _ _ (by intro c hc; simp at hc; simp [hc])]
      rw [tokPieces, if_pos hq]
      congr 1
      funext x
      simp
    have hne : tokPieces a ≠ [] := by
      rw [tokPieces, if_pos hq]
      cases hvs : splitDelim ',' a.value with
      | nil => exact absurd hvs (splitDelim_ne_nil ',' a.value)
      | cons p t =>
        cases t with
        | nil => simp [modLast]
        | cons p2 t2 =>
          rw [modLast_cons_of_ne_nil _ p (by simp)]
          simp
    refine ⟨?_, hne⟩
    rw [tokenize, hsplit, List.filter_eq_self.mpr ?_]
    intro piece hpiece
    rw [tokPieces, if_pos hq] at hpiece
    cases hvs : splitDelim ',' a.value with
    | nil => exact absurd hvs (splitDelim_ne_nil ',' a.value)
    | cons p t =>
      rw [hvs] at hpiece
      cases t with
      | nil =>
        simp only [modLast, List.modifyHead_cons, List.mem_singleton] at hpiece
        subst hpiece
        simp
      | cons p2 t2 =>
        have hall : (splitDelim ',' a.value).all (fun x => ¬ x.isEmpty) = true := by
          rcases Bool.or_eq_true _ _ |>.mp hpieces with h | h
          · exfalso
            rw [hvs] at h
            simp at h
          · exact h
        have hallne : ∀ x ∈ splitDelim ',' a.value, x ≠ [] := by
          intro x hx
          have := List.all_eq_true.mp hall x hx
          simpa using this
        rw [modLast_cons_of_ne_nil _ p (by simp), List.modifyHead_cons] at hpiece
        rcases List.mem_cons.mp hpiece with h | h
        · subst h; simp
        · rcases mem_modLast _ _ piece h with h1 | ⟨x, hx, hfx⟩
          · have : piece ≠ [] := hallne piece (by rw [hvs]; simp [h1])
            simpa using this
          · subst hfx
            simp
  · rw [if_neg hq] at hval
    have hval' : ∀ c ∈ a.value, c ≠ ',' ∧ c ≠ '"' := by
      intro c hc
      have := List.all_eq_true.mp hval c hc
      simp only [Bool.and_eq_true, decide_eq_true_eq] at this
      tauto
    have hrend : ∀ c ∈ renderTok a, c ≠ ',' := by
      intro c hc
      rw [renderTok, if_neg hq] at hc
      rcases List.mem_append.mp hc with h | h
      · exact (hkey' c h).1
      · rcases List.mem_cons.mp h with h | h
        · simp [h]
        · exact (hval' c h).1
    have hne : renderTok a ≠ [] := by
      rw [renderTok]
      simp
    rw [tokenize, splitDelim_no_delim ',' _ hrend, tokPieces, if_neg hq]
    constructor
    · simp [hne]
    · simp

theorem fixTokens_tokPieces (a : attrTok) (hwf : wfAttr a = true)
    (rest : List Str) :
    fixTokens (tokPieces a ++ rest) [] = renderTok a :: fixTokens rest [] := by
  have hwf' := hwf
  rw [wfAttr, Bool.and_eq_true] at hwf'
  obtain ⟨hkey, hval⟩ := hwf'
  have hkey' : ∀ c ∈ a.key, c ≠ ',' ∧ c ≠ '"' ∧ c ≠ '=' := by
    intro c hc
    have := List.all_eq_true.mp hkey c hc
    simp only [Bool.and_eq_true, decide_eq_true_eq] at this
    tauto
  by_cases hq : a.quoted
  · rw [if_pos hq, Bool.and_eq_true] at hval
    obtain ⟨hqfree, hpieces⟩ := hval
    have hqfree' : ∀ c ∈ a.value, c ≠ '"' := by
      intro c hc
      simpa using List.all_eq_true.mp hqfree c hc
    rw [tokPieces, if_pos hq]
    cases hvs : splitDelim ',' a.value with
    | nil => exact absurd hvs (splitDelim_ne_nil ',' a.value)
    | cons p t =>
      have hjoin : joinDelim ',' (p :: t) = a.value := by
        rw [← hvs, joinDelim_splitDelim]
      cases t with
      | nil =>
        simp only [modLast, List.modifyHead_cons, List.cons_append]
        rw [fixTokens, if_neg (by simp)]
        have hcount : countQuotes (a.key ++ '=' :: '"' :: (p ++ ['"'])) = 2 := by
          have h1 : countQuotes a.key = 0 :=
            countQuotes_eq_zero (fun c hc => (hkey' c hc).2.1)
          have h2 : countQuotes p = 0 := by
            refine countQuotes_eq_zero (fun c hc => ?_)
            exact hqfree' c (mem_of_mem_splitDelim ',' a.value p (by rw [hvs]; simp) c hc)
          rw [countQuotes] at h1 h2 ⊢
          simp [List.count_cons, List.count_append, h1, h2]
        rw [if_neg (by rw [hcount]; norm_num)]
        have hp : p = a.value := by
          simpa [joinDelim] using hjoin
        rw [renderTok, if_pos hq, hp]
        simp
      | cons p2 t2 =>
        have hall : ∀ x ∈ splitDelim ',' a.value, x ≠ [] ∧ ∀ c ∈ x, c ≠ '"' := by
          intro x hx
          have hlen : ¬ (splitDelim ',' a.value).length = 1 := by
            rw [hvs]
            simp
          have hne : x ≠ [] := by
            rcases Bool.or_eq_true _ _ |>.mp hpieces with h | h
            · exact absurd (by simpa using h) hlen
            · simpa using List.all_eq_true.mp h x hx
          exact ⟨hne, fun c hc =>
            hqfree' c (mem_of_mem_splitDelim ',' a.value x hx c hc)⟩
        rw [modLast_cons_of_ne_nil _ p (by simp), List.modifyHead_cons,
          List.cons_append, fixTokens, if_neg (by simp)]
        have hcount : countQuotes (a.key ++ '=' :: '"' :: p) = 1 := by
          have h1 : countQuotes a.key = 0 :=
            countQuotes_eq_zero (fun c hc => (hkey' c hc).2.1)
          have h2 : countQuotes p = 0 :=
            countQuotes_eq_zero (fun c hc => (hall p (by rw [hvs]; simp)).2 c hc)
          rw [countQuotes] at h1 h2 ⊢
          simp [List.count_cons, List.count_append, h1, h2]
        rw [if_pos hcount]
        rw [fix_absorb (p2 :: t2) rest (a.key ++ '=' :: '"' :: p) (by simp)
          (by simp) (fun x hx => hall x (by rw [hvs]; simp [hx]))]
        rw [joinDelim_cons_of_ne_nil ',' p (by simp)] at hjoin
        rw [renderTok, if_pos hq, ← hjoin]
        simp
  · rw [if_neg hq] at hval
    rw [tokPieces, if_neg hq, List.cons_append, fixTokens, if_neg (by simp)]
    have hval' : ∀ c ∈ a.value, c ≠ ',' ∧ c ≠ '"' := by
      intro c hc
      have := List.all_eq_true.mp hval c hc
      simp only [Bool.and_eq_true, decide_eq_true_eq] at this
      tauto
    have hcount : countQuotes (renderTok a) = 0 := by
      refine countQuotes_eq_zero ?_
      intro c hc
      rw [renderTok, if_neg hq] at hc
      rcases List.mem_append.mp hc with h | h
      · exact (hkey' c h).2.1
      · rcases List.mem_cons.mp h with h | h
        · simp [h]
        · exact (hval' c h).2
    rw [if_neg (by rw [hcount]; norm_num)]
    simp

theorem tokenize_renderAttrs (attrs : List attrTok)
    (hwf : ∀ a ∈ attrs, wfAttr a = true) :
    tokenize (renderAttrs attrs) ',' = (attrs.map tokPieces).flatten := by
  induction attrs with
  | nil => simp [renderAttrs, tokenize, splitDelim]
  | cons a rest ih =>
    cases rest with
    | nil =>
      simp only [renderAttrs, List.map_cons, List.map_nil, List.flatten_cons,
        List.flatten_nil, List.append_nil]
      exact (tokenize_renderTok a (hwf a (by simp))).1
    | cons b rest2 =>
      have hra : renderAttrs (a :: b :: rest2) =
          renderTok a ++ ',' :: renderAttrs (b :: rest2) := rfl
      rw [hra, tokenize, splitDelim_append, List.filter_append,
        List.map_cons, List.flatten_cons]
      congr 1
      · exact (tokenize_renderTok a (hwf a (by simp))).1
      · exact ih (fun x hx => hwf x (by simp [hx]))

/-- Round trip of the tokenizer: rendering a well-formed attribute list and
tokenizing it returns exactly the rendered tokens, quoted values reassembled
intact. -/
theorem tokenize_properties_render (attrs : List attrTok)
    (hwf : ∀ a ∈ attrs, wfAttr a = true) :
    tokenize_properties (renderAttrs attrs) = attrs.map renderTok := by
  have hflat : ∀ (l : List attrTok), (∀ a ∈ l, wfAttr a = true) →
      fixTokens ((l.map tokPieces).flatten) [] = l.map renderTok := by
    intro l
    induction l with
    | nil => intro _; rfl
    | cons a rest ih =>
      intro hl
      rw [List.map_cons, List.flatten_cons, fixTokens_tokPieces a (hl a (by simp)),
        ih (fun x hx => hl x (by simp [hx])), List.map_cons]
  rw [tokenize_properties, tokenize_renderAttrs attrs hwf]
  cases attrs with
  | nil => rfl
  | cons a rest =>
    have hne : (((a :: rest).map tokPieces).flatten).isEmpty = false := by
      have h2 := (tokenize_renderTok a (hwf a (by simp))).2
      cases h : tokPieces a with
      | nil => exact absurd h h2
      | cons x xs =>
        rw [List.map_cons, List.flatten_cons, h]
        simp
    rw [if_neg (by rw [hne]; simp)]
    exact hflat (a :: rest) hwf

theorem take_len_append (a b : Str) : (a ++ b).take a.length = a := by
  rw [List.take_append_of_le_length (Nat.le_refl _), List.take_length]

theorem drop_len_append (a b : Str) : (a ++ b).drop a.length = b := by
  rw [List.drop_append_of_le_length (Nat.le_refl _), List.drop_length]
  simp

theorem findIdx?_key_aux (v : Str) :
    ∀ (k : Str), (∀ c ∈ k, ¬ c = '=') → ∀ i,
      List.findIdx? (fun c => c = '=') (k ++ '=' :: v) i = some (i + k.length) := by
  intro k
  induction k with
  | nil =>
    intro _ i
    rw [List.nil_append, List.findIdx?_cons]
    simp
  | cons c k ih =>
    intro h i
    rw [List.cons_append, List.findIdx?_cons]
    have hc : ¬ c = '=' := h c (by simp)
    rw [if_neg (by simpa using hc), ih (fun x hx => h x (by simp [hx])) (i + 1)]
    congr 1
    simp only [List.length_cons]
    omega

theorem mem_of_mem_trim {c : Char} {s : Str} (h : c ∈ trim s) : c ∈ s := by
  rw [trim, List.rdropWhile] at h
  rw [List.mem_reverse] at h
  have h1 := (List.dropWhile_sublist (l := (s.dropWhile isSpaceChar).reverse)
    isSpaceChar).mem h
  rw [List.mem_reverse] at h1
  exact (List.dropWhile_sublist isSpaceChar).mem h1

theorem trim_quoted (v : Str) : trim ('"' :: v ++ ['"']) = '"' :: v ++ ['"'] := by
  rw [trim]
  have h1 : List.dropWhile isSpaceChar ('"' :: v ++ ['"']) = '"' :: v ++ ['"'] := by
    rw [List.cons_append, List.dropWhile_cons, if_neg (by decide)]
  rw [h1]
  have h2 : ('"' :: v ++ ['"'] : Str) = ('"' :: v) ++ ['"'] := by simp
  rw [h2, List.rdropWhile_concat, if_neg (by decide)]

/-- Parse of a quoted `KEY="VALUE"` token: the outer quotes are stripped and
the inner value returned exactly. -/
theorem parse_property_quoted (k v : Str) (hk : ∀ c ∈ k, ¬ c = '=') :
    parse_property (k ++ '=' :: ('"' :: v ++ ['"'])) = (trim k, v) := by
  rw [parse_property, findIdx?_key_aux _ k hk 0]
  simp only [Nat.zero_add, take_len_append]
  have hdrop : (k ++ '=' :: ('"' :: v ++ ['"'])).drop (k.length + 1) =
      '"' :: v ++ ['"'] := by
    have hshape : (k ++ '=' :: ('"' :: v ++ ['"']) : Str) =
        (k ++ ['=']) ++ ('"' :: v ++ ['"']) := by simp
    have hlen : (k ++ ['='] : Str).length = k.length + 1 := by simp
    rw [hshape, ← hlen, drop_len_append]
  rw [hdrop, trim_quoted]
  have hcond : 2 ≤ ('"' :: v ++ ['"'] : Str).length ∧
      ('"' :: v ++ ['"'] : Str).head? = some '"' ∧
      ('"' :: v ++ ['"'] : Str).getLast? = some '"' := by
    refine ⟨by simp, by simp, ?_⟩
    have h2 : ('"' :: v ++ ['"'] : Str) = ('"' :: v) ++ ['"'] := by simp
    rw [h2, List.getLast?_concat]
  rw [if_pos hcond]
  simp

/-- Parse of an unquoted `KEY=VALUE` token with a quote-free value: both
sides are trimmed, nothing is stripped. -/
theorem parse_property_unquoted (k v : Str) (hk : ∀ c ∈ k, ¬ c = '=')
    (hv : ∀ c ∈ v, ¬ c = '"') :
    parse_property (k ++ '=' :: v) = (trim k, trim v) := by
  rw [parse_property, findIdx?_key_aux _ k hk 0]
  simp only [Nat.zero_add, take_len_append]
  have hdrop : (k ++ '=' :: v).drop (k.length + 1) = v := by
    have hshape : (k ++ '=' :: v : Str) = (k ++ ['=']) ++ v := by simp
    have hlen : (k ++ ['='] : Str).length = k.length + 1 := by simp
    rw [hshape, ← hlen, drop_len_append]
  rw [hdrop]
  have hcond : ¬ (2 ≤ (trim v).length ∧
      (trim v).head? = some '"' ∧ (trim v).getLast? = some '"') := by
    rintro ⟨_, h2, _⟩
    cases htv : trim v with
    | nil => rw [htv] at h2; simp at h2
    | cons c t =>
      rw [htv] at h2
      simp only [List.head?_cons, Option.some_inj] at h2
      exact hv c (mem_of_mem_trim (by rw [htv]; simp)) h2
  rw [if_neg hcond]

/-- Parse of a well-formed rendered token: the key comes back trimmed and
verbatim (in particular not uppercased), the outer quotes of a quoted value
are stripped and its content returned exactly, an unquoted value is
trimmed. -/
theorem parse_renderTok (a : attrTok) (hwf : wfAttr a = true) :
    (renderTok a).contains '=' = true ∧
    parse_property (renderTok a) =
      (trim a.key, if a.quoted then a.value else trim a.value) := by
  have hwf' := hwf
  rw [wfAttr, Bool.and_eq_true] at hwf'
  obtain ⟨hkey, hval⟩ := hwf'
  have hkey' : ∀ c ∈ a.key, ¬ c = '=' := by
    intro c hc
    have := List.all_eq_true.mp hkey c hc
    simp only [Bool.and_eq_true, decide_eq_true_eq] at this
    tauto
  have hmem : ('=' : Char) ∈ renderTok a := by
    rw [renderTok]
    exact List.mem_append.mpr (Or.inr (by simp))
  refine ⟨List.elem_eq_true_of_mem hmem, ?_⟩
  by_cases hq : a.quoted
  · have hrend : renderTok a = a.key ++ '=' :: ('"' :: a.value ++ ['"']) := by
      rw [renderTok, if_pos hq]
    rw [hrend, parse_property_quoted a.key a.value hkey', if_pos hq]
  · have hrend : renderTok a = a.key ++ '=' :: a.value := by
      rw [renderTok, if_neg hq]
    rw [if_neg hq] at hval
    have hval' : ∀ c ∈ a.value, ¬ c = '"' := by
      intro c hc
      have := List.all_eq_true.mp hval c hc
      simp only [Bool.and_eq_true, decide_eq_true_eq] at this
      tauto
    rw [hrend, parse_property_unquoted a.key a.value hkey' hval', if_neg hq]

theorem mapFind?_append (l₁ l₂ : PropMap) (k : Str) :
    mapFind? (l₁ ++ l₂) k = (mapFind? l₁ k).or (mapFind? l₂ k) := by
  rw [mapFind?, List.find?_append, mapFind?, mapFind?]
  cases h : List.find? (fun kv => decide (kv.1 = k)) l₁ <;> simp [h]

theorem parse_properties_foldl_find? (toks : List Str) :
    ∀ (acc : PropMap) (k : Str),
      mapFind? (toks.foldl
        (fun ret prop =>
          if prop.contains '=' then
            let kv := parse_property prop
            if mapContains ret kv.1 then ret else ret ++ [kv]
          else ret) acc) k =
      (mapFind? acc k).or (toks.findSome? (fun t =>
        if t.contains '=' then
          (if (parse_property t).1 = k then some (parse_property t).2 else none)
        else none)) := by
  induction toks with
  | nil => intro acc k; simp
  | cons t toks ih =>
    intro acc k
    rw [List.foldl_cons, List.findSome?_cons]
    by_cases hc : t.contains '=' = true
    · simp only [hc, if_true]
      by_cases hm : mapContains acc (parse_property t).1 = true
      · simp only [hm, if_true]
        rw [ih acc k]
        by_cases hk : (parse_property t).1 = k
        · have hsome : (mapFind? acc k).isSome = true := by
            rw [← hk]
            exact hm
          obtain ⟨x, hx⟩ := Option.isSome_iff_exists.mp hsome
          rw [hx]
          simp [hk]
        · simp [hk]
      · simp only [hm, Bool.false_eq_true, if_false]
        rw [ih (acc ++ [parse_property t]) k, mapFind?_append, Option.or_assoc]
        congr 1
        rw [mapFind?_cons]
        by_cases hk : (parse_property t).1 = k
        · simp only [Prod.mk.eta] at *
          simp [hk, mapFind?]
        · simp [hk, mapFind?]
    · simp only [hc, Bool.false_eq_true, if_false]
      rw [ih acc k]

theorem parse_properties_find? (toks : List Str) (k : Str) :
    mapFind? (parse_properties toks) k =
      toks.findSome? (fun t =>
        if t.contains '=' then
          (if (parse_property t).1 = k then some (parse_property t).2 else none)
        else none) := by
  rw [parse_properties, parse_properties_foldl_find? toks [] k]
  simp [mapFind?]

theorem findSome?_congr_mem {α β : Type} (f g : α → Option β) :
    ∀ l : List α, (∀ a ∈ l, f a = g a) → l.findSome? f = l.findSome? g := by
  intro l
  induction l with
  | nil => intro _; rfl
  | cons a l ih =>
    intro h
    rw [List.findSome?_cons, List.findSome?_cons, h a (by simp),
      ih (fun x hx => h x (by simp [hx]))]

/-- C5 amended: for every well-formed comma-separated attribute list in which
a value may be double-quoted and contain commas, the tokenizer reconstructs
every rendered token (quoted values intact across the inner commas), and the
parsed map looks up each key as the first occurrence's value, keys trimmed
and case-preserved (not uppercased), values trimmed and stripped of their
outer quotes. -/
theorem C5_amended (attrs : List attrTok) (hwf : ∀ a ∈ attrs, wfAttr a = true) :
    tokenize_properties (renderAttrs attrs) = attrs.map renderTok ∧
    ∀ k, mapFind? (parse_properties (tokenize_properties (renderAttrs attrs))) k =
      attrs.findSome? (fun a =>
        if trim a.key = k then some (if a.quoted then a.value else trim a.value)
        else none) := by
  refine ⟨tokenize_properties_render attrs hwf, fun k => ?_⟩
  rw [tokenize_properties_render attrs hwf, parse_properties_find?,
    List.findSome?_map]
  refine findSome?_congr_mem _ _ attrs ?_
  intro a ha
  have h := parse_renderTok a (hwf a ha)
  simp only [Function.comp_apply, h.1, if_true, h.2]

/-- C5 witness: the amended theorem applied to the BANDWIDTH/CODECS example,
the quoted CODECS value containing a comma. -/
theorem C5_amended_witness :
    (∀ a ∈ ([⟨strLit "BANDWIDTH", strLit "716090", false⟩,
              ⟨strLit "CODECS", strLit "mp4a.40.2,avc1.42c01e", true⟩] : List attrTok),
        wfAttr a = true) ∧
    mapFind? (parse_properties (tokenize_properties (renderAttrs
        [⟨strLit "BANDWIDTH", strLit "716090", false⟩,
         ⟨strLit "CODECS", strLit "mp4a.40.2,avc1.42c01e", true⟩])))
      (strLit "CODECS") = some (strLit "mp4a.40.2,avc1.42c01e") :=
  ⟨by decide, by
    rw [(C5_amended _ (by decide)).2 (strLit "CODECS")]
    decide⟩

/-! Claims C1, C3, C4: the download engine. -/

/-- A file that `verify_file` rejects: a failed size lookup or a size of at
most 1024 bytes (every small file produces some error). -/
def fileBad (f : filedata_t) : Bool := f.sizeErr.isSome || f.size ≤ 1024

/-- A completion message the engine counts as a failure: transport error or
verification error. -/
def msgFails (m : message_t) : Bool := m.result.isSome || fileBad m.file

/-- Consecutive-error counter automaton over the failure flags of one drain
batch: a failure increments, a success resets, reaching 5 trips. -/
def tripsFrom : Nat → List Bool → Bool
  | _, [] => false
  | ce, b :: bs =>
    if b then (if 5 ≤ ce + 1 then true else tripsFrom (ce + 1) bs)
    else tripsFrom 0 bs

/-- Error record the small-file line scan produces, `unknown error` when no
line matches. -/
def scanErrorOf (lines : List Str) (u p : Str) : curl_wrapper_error :=
  match scanFileLines lines u p with
  | some e => e
  | none => ⟨strLit "unknown error", u, p⟩

theorem verify_file_isSome (p u : Str) (f : filedata_t) :
    (verify_file p u f).isSome = fileBad f := by
  rw [verify_file, fileBad]
  cases hse : f.sizeErr with
  | some m => simp
  | none =>
    by_cases hsz : f.size ≤ 1024
    · rw [if_pos hsz]
      cases f.openErr with
      | some m => simp [hsz]
      | none =>
        cases scanFileLines f.lines u p with
        | some e => simp [hsz]
        | none => simp [hsz]
    · rw [if_neg hsz]
      simp [hsz]

theorem verify_file_eq_none_iff (p u : Str) (f : filedata_t) :
    verify_file p u f = none ↔ f.sizeErr = none ∧ 1024 < f.size := by
  have h := verify_file_isSome p u f
  constructor
  · intro hn
    rw [hn] at h
    have h2 : fileBad f = false := by simpa using h.symm
    rw [fileBad] at h2
    simp only [Bool.or_eq_false_iff] at h2
    refine ⟨?_, ?_⟩
    · cases hse : f.sizeErr with
      | none => rfl
      | some m =>
        rw [hse] at h2
        simp at h2
    · have h3 := h2.2
      simp only [decide_eq_false_iff_not, Nat.not_le] at h3
      exact h3
  · rintro ⟨h1, h2⟩
    rw [verify_file, h1, if_neg (by omega)]

theorem drainMsgs_trips (batch : List message_t) :
    ∀ (ce : Nat) (st : engine_state),
      (drainMsgs batch ce st).2 = tripsFrom ce (batch.map msgFails) := by
  induction batch with
  | nil => intro ce st; rfl
  | cons msg rest ih =>
    intro ce st
    rw [drainMsgs, List.map_cons, tripsFrom]
    cases hres : msg.result with
    | some m =>
      dsimp only
      have hf : msgFails msg = true := by simp [msgFails, hres]
      rw [hf, if_pos rfl]
      by_cases htrip : 5 ≤ ce + 1
      · rw [if_pos htrip, if_pos htrip]
      · rw [if_neg htrip, if_neg htrip]
        exact ih (ce + 1) _
    | none =>
      dsimp only
      cases hv : verify_file
          ((st.handles.getD msg.index none).getD ⟨[], []⟩).path
          ((st.handles.getD msg.index none).getD ⟨[], []⟩).url msg.file with
      | none =>
        dsimp only
        have hf : msgFails msg = false := by
          have h := verify_file_isSome
            ((st.handles.getD msg.index none).getD ⟨[], []⟩).path
            ((st.handles.getD msg.index none).getD ⟨[], []⟩).url msg.file
          rw [hv] at h
          simp [msgFails, hres, ← h]
        rw [hf]
        simp only [Bool.false_eq_true, if_false]
        exact ih 0 _
      | some e =>
        dsimp only
        have hf : msgFails msg = true := by
          have h := verify_file_isSome
            ((st.handles.getD msg.index none).getD ⟨[], []⟩).path
            ((st.handles.getD msg.index none).getD ⟨[], []⟩).url msg.file
          rw [hv] at h
          simp [msgFails, hres, ← h]
        rw [hf, if_pos rfl]
        by_cases htrip : 5 ≤ ce + 1
        · rw [if_pos htrip, if_pos htrip]
        · rw [if_neg htrip, if_neg htrip]
          exact ih (ce + 1) _

theorem engineLoop_trips (ps : List pathurl_t) (ok : Nat → Bool) (em : Nat → Str) :
    ∀ (schedule : List (List message_t)) (st : engine_state),
      (engineLoop ps ok em schedule st).2 =
        schedule.any (fun b => tripsFrom 0 (b.map msgFails)) := by
  intro schedule
  induction schedule with
  | nil => intro st; rfl
  | cons batch rest ih =>
    intro st
    rw [engineLoop, List.any_cons]
    have hd := drainMsgs_trips batch 0
      { topoff ps ok em st with
        active := (topoff ps ok em st).attached.length - batch.length }
    by_cases ht : tripsFrom 0 (batch.map msgFails) = true
    · rw [ht]
      simp only [Bool.true_or]
      rw [if_pos (by rw [hd]; exact ht)]
    · have ht' : tripsFrom 0 (batch.map msgFails) = false :=
        Bool.eq_false_iff.mpr ht
      rw [ht']
      simp only [Bool.false_or]
      rw [if_neg (by rw [hd, ht']; simp), ih]

theorem tripsFrom_of_run :
    ∀ (bs : List Bool) (ce k : Nat), 1 ≤ k → 5 ≤ ce + k →
      List.replicate k true <+: bs → tripsFrom ce bs = true := by
  intro bs
  induction bs with
  | nil =>
    intro ce k hk1 hk hpre
    exfalso
    have := hpre.length_le
    simp at this
    omega
  | cons b bs ih =>
    intro ce k hk1 hk hpre
    cases k with
    | zero => omega
    | succ k =>
      have hb : b = true ∧ List.replicate k true <+: bs := by
        rcases hpre with ⟨t, ht⟩
        rw [List.replicate_succ, List.cons_append] at ht
        injection ht with h1 h2
        exact ⟨h1.symm, ⟨t, h2⟩⟩
      rw [tripsFrom, hb.1, if_pos rfl]
      by_cases htrip : 5 ≤ ce + 1
      · rw [if_pos htrip]
      · rw [if_neg htrip]
        exact ih (ce + 1) k (by omega) (by omega) hb.2

theorem tripsFrom_of_infix :
    ∀ (bs : List Bool) (ce : Nat),
      List.replicate 5 true <:+: bs → tripsFrom ce bs = true := by
  intro bs
  induction bs with
  | nil =>
    intro ce h
    exfalso
    have := h.length_le
    simp at this
  | cons b bs ih =>
    intro ce h
    rcases h with ⟨s, t, hst⟩
    cases s with
    | nil =>
      simp only [List.nil_append] at hst
      exact tripsFrom_of_run (b :: bs) ce 5 (by omega) (by omega) ⟨t, hst⟩
    | cons c s =>
      have hbs : List.replicate 5 true <:+: bs := by
        rw [List.cons_append, List.cons_append] at hst
        injection hst with h1 h2
        exact ⟨s, t, h2⟩
      rw [tripsFrom]
      by_cases hb : b = true
      · rw [hb, if_pos rfl]
        by_cases htrip : 5 ≤ ce + 1
        · rw [if_pos htrip]
        · rw [if_neg htrip]
          exact ih (ce + 1) hbs
      · rw [Bool.eq_false_iff.mpr hb]
        simp only [Bool.false_eq_true, if_false]
        exact ih 0 hbs

theorem tripsFrom_sound :
    ∀ (bs : List Bool) (ce : Nat), tripsFrom ce bs = true →
      (∃ k, List.replicate k true <+: bs ∧ 5 ≤ ce + k) ∨
        List.replicate 5 true <:+: bs := by
  intro bs
  induction bs with
  | nil => intro ce h; rw [tripsFrom] at h; exact absurd h (by simp)
  | cons b bs ih =>
    intro ce h
    rw [tripsFrom] at h
    by_cases hb : b = true
    · rw [hb, if_pos rfl] at h
      by_cases htrip : 5 ≤ ce + 1
      · left
        refine ⟨1, ?_, by omega⟩
        rw [hb]
        exact ⟨bs, rfl⟩
      · rw [if_neg htrip] at h
        rcases ih (ce + 1) h with ⟨k, hpre, hk⟩ | hinf
        · left
          refine ⟨k + 1, ?_, by omega⟩
          rw [hb, List.replicate_succ]
          rcases hpre with ⟨t, ht⟩
          exact ⟨t, by rw [List.cons_append, ht]⟩
        · right
          rcases hinf with ⟨s, t, hst⟩
          exact ⟨b :: s, t, by rw [← hst]; simp⟩
    · rw [Bool.eq_false_iff.mpr hb] at h
      simp only [Bool.false_eq_true, if_false] at h
      rcases ih 0 h with ⟨k, hpre, hk⟩ | hinf
      · right
        have hk5 : 5 ≤ k := by omega
        have hpre5 : List.replicate 5 true <+: bs := by
          rcases hpre with ⟨t, ht⟩
          have hsplit : List.replicate k (true : Bool) =
              List.replicate 5 true ++ List.replicate (k - 5) true := by
            rw [← List.replicate_add]
            congr 1
            omega
          exact ⟨List.replicate (k - 5) true ++ t, by
            rw [← ht, hsplit, List.append_assoc]⟩
        rcases hpre5 with ⟨t, ht⟩
        exact ⟨[b], t, by rw [← ht]; simp⟩
      · right
        rcases hinf with ⟨s, t, hst⟩
        exact ⟨b :: s, t, by rw [← hst]; simp⟩

theorem tripsFrom_zero_iff (bs : List Bool) :
    tripsFrom 0 bs = true ↔ List.replicate 5 true <:+: bs := by
  constructor
  · intro h
    rcases tripsFrom_sound bs 0 h with ⟨k, hpre, hk⟩ | hinf
    · have hsplit : List.replicate k (true : Bool) =
          List.replicate 5 true ++ List.replicate (k - 5) true := by
        rw [← List.replicate_add]
        congr 1
        omega
      rcases hpre with ⟨t, ht⟩
      exact ⟨[], List.replicate (k - 5) true ++ t, by
        rw [List.nil_append, ← ht, hsplit, List.append_assoc]⟩
    · exact hinf
  · exact tripsFrom_of_infix bs 0

/-- C1 amended: the consecutive-error counter is declared inside the main
loop, so it restarts at zero for every drain batch; within a batch every
failure (transport or verification) increments it, any success resets it,
and reaching 5 returns the accumulated Results immediately.  Hence the
engine returns early iff some single drain batch contains a run of 5
consecutive failures with no intervening success; 5 consecutive failures
distributed over several batches do not trip the breaker. -/
theorem C1_amended (pathurls : List pathurl_t) (setupOk : Nat → Bool)
    (setupMsg : Nat → Str) (schedule : List (List message_t)) :
    (download_files pathurls setupOk setupMsg schedule).2.1 = true ↔
      ∃ batch ∈ schedule, List.replicate 5 true <:+: batch.map msgFails := by
  have hd : (download_files pathurls setupOk setupMsg schedule).2.1 =
      (engineLoop pathurls setupOk setupMsg schedule
        ⟨0, 0, [], List.replicate pathurls.length none, ⟨[], []⟩, 0⟩).2 := rfl
  rw [hd, engineLoop_trips, List.any_eq_true]
  constructor
  · rintro ⟨b, hb, ht⟩
    exact ⟨b, hb, (tripsFrom_zero_iff _).mp ht⟩
  · rintro ⟨b, hb, ht⟩
    exact ⟨b, hb, (tripsFrom_zero_iff _).mpr ht⟩

/-- Fixture: six work items `(f0,u0) … (f5,u5)`. -/
def engItems : List pathurl_t :=
  (List.range 6).map (fun j => ⟨strLit ("f" ++ Nat.repr j), strLit ("u" ++ Nat.repr j)⟩)

/-- Fixture: a file that passes verification (2000 bytes). -/
def engFileOk : filedata_t := ⟨none, 2000, none, []⟩

/-- Fixture: a transport-failed completion of transfer `j`. -/
def engFailMsg (j : Nat) : message_t := ⟨j, some (strLit "timeout"), engFileOk⟩

/-- Fixture: five failures spread over two drain batches followed by a
successful completion in a third batch. -/
def engSchedSplit : List (List message_t) :=
  [[engFailMsg 0, engFailMsg 1, engFailMsg 2],
   [engFailMsg 3, engFailMsg 4],
   [⟨5, none, engFileOk⟩]]

/-- C1 counterexample: the schedule delivers 5 consecutive failures with no
intervening success (3 in one drain batch, 2 in the next), yet the breaker
does not trip: the engine goes on to process the sixth transfer and returns
normally with it in `succeeded_files`, instead of returning immediately at
the fifth failure. -/
theorem C1_counterexample :
    List.replicate 5 true <:+: (engSchedSplit.flatten.map msgFails) ∧
    (download_files engItems (fun _ => true) (fun _ => []) engSchedSplit).2.1
      = false ∧
    (download_files engItems (fun _ => true) (fun _ => []) engSchedSplit).1.succeeded_files
      = [strLit "f5"] ∧
    (download_files engItems (fun _ => true) (fun _ => []) engSchedSplit).1.errors.length
      = 5 := by decide

/-- State invariant of the engine between drains: bounded, duplicate-free
attached set below the submit cursor, handles vector of the right length
whose attached slots hold the corresponding work item, bounded peak. -/
structure coreInv (ps : List pathurl_t) (st : engine_state) : Prop where
  card : st.attached.length ≤ 5
  nodup : st.attached.Nodup
  ltI : ∀ j ∈ st.attached, j < st.i
  iLe : st.i ≤ ps.length
  hlen : st.handles.length = ps.length
  hslot : ∀ j ∈ st.attached, st.handles.getD j none = some (ps.getD j ⟨[], []⟩)
  peakLe : st.peak ≤ 5

/-- Invariant at the head of the main loop: additionally the
`active_handles` counter equals the number of attached transfers. -/
structure engInv (ps : List pathurl_t) (st : engine_state)
    extends coreInv ps st : Prop where
  activeEq : st.active = st.attached.length

theorem initState_inv (ps : List pathurl_t) : engInv ps (initState ps.length) := by
  refine ⟨⟨?_, ?_, ?_, ?_, ?_, ?_, ?_⟩, ?_⟩ <;> simp [initState]

theorem getD_set_ne {α : Type} (l : List (Option α)) (i j : Nat) (x : Option α)
    (h : i ≠ j) : (l.set i x).getD j none = l.getD j none := by
  rw [List.getD_eq_getElem?_getD, List.getElem?_set_ne h, ← List.getD_eq_getElem?_getD]

theorem getD_set_self {α : Type} (l : List (Option α)) (i : Nat) (x : Option α)
    (h : i < l.length) : (l.set i x).getD i none = x := by
  rw [List.getD_eq_getElem?_getD, List.getElem?_set_self h]
  rfl

theorem topoffAux_inv (ps : List pathurl_t) (ok : Nat → Bool) (em : Nat → Str) :
    ∀ (fuel : Nat) (st : engine_state), engInv ps st →
      engInv ps (topoffAux ps ok em fuel st) := by
  intro fuel
  induction fuel with
  | zero => intro st h; exact h
  | succ fuel ih =>
    intro st h
    rw [topoffAux]
    by_cases hc : st.active < 5 ∧ st.i < ps.length
    · rw [if_pos hc]
      have hlen5 : st.attached.length < 5 := by
        have := h.activeEq
        omega
      by_cases hok : ok st.i = true
      · rw [if_pos hok]
        refine ih _ ⟨⟨?_, ?_, ?_, ?_, ?_, ?_, ?_⟩, ?_⟩
        · dsimp only
          simp only [List.length_append, List.length_singleton]
          omega
        · dsimp only
          rw [List.nodup_append]
          refine ⟨h.nodup, by simp, ?_⟩
          intro a ha hb
          have h1 := h.ltI a ha
          have h2 : a = st.i := by simpa using hb
          omega
        · dsimp only
          intro j hj
          rcases List.mem_append.mp hj with hj | hj
          · have := h.ltI j hj
            omega
          · have : j = st.i := by simpa using hj
            omega
        · dsimp only
          omega
        · dsimp only
          simp only [List.length_set]
          exact h.hlen
        · dsimp only
          intro j hj
          rcases List.mem_append.mp hj with hj | hj
          · have hne : st.i ≠ j := by
              have := h.ltI j hj
              omega
            rw [getD_set_ne _ _ _ _ hne]
            exact h.hslot j hj
          · have hji : j = st.i := by simpa using hj
            have hjlen : st.i < st.handles.length := by
              rw [h.hlen]
              exact hc.2
            rw [hji]
            exact getD_set_self _ _ _ hjlen
        · dsimp only
          refine max_le h.peakLe ?_
          omega
        · dsimp only
          simp only [List.length_append, List.length_singleton]
          rw [h.activeEq]
      · rw [if_neg hok]
        refine ih _ ⟨⟨?_, ?_, ?_, ?_, ?_, ?_, ?_⟩, ?_⟩
        · exact h.card
        · exact h.nodup
        · dsimp only
          intro j hj
          have := h.ltI j hj
          omega
        · dsimp only
          omega
        · exact h.hlen
        · exact h.hslot
        · exact h.peakLe
        · exact h.activeEq
    · rw [if_neg hc]
      exact h

theorem topoff_inv (ps : List pathurl_t) (ok : Nat → Bool) (em : Nat → Str)
    (st : engine_state) (h : engInv ps st) : engInv ps (topoff ps ok em st) :=
  topoffAux_inv ps ok em _ st h

/-- State facts the drain establishes: submit cursor, active counter and
peak are untouched; the attached set shrinks within the initial one, staying
duplicate-free, and its handle slots are untouched; when the breaker did not
trip, exactly one attached transfer was detached per message. -/
def drainFacts (st : engine_state) (batch : List message_t)
    (r : engine_state × Bool) : Prop :=
  r.1.i = st.i ∧ r.1.active = st.active ∧ r.1.peak = st.peak ∧
  r.1.attached.Nodup ∧ (∀ j ∈ r.1.attached, j ∈ st.attached) ∧
  r.1.attached.length ≤ st.attached.length ∧
  r.1.handles.length = st.handles.length ∧
  (∀ j ∈ r.1.attached, r.1.handles.getD j none = st.handles.getD j none) ∧
  (r.2 = false → r.1.attached.length + batch.length = st.attached.length)

theorem drainFacts_step (st stB : engine_state) (msg : message_t)
    (rest : List message_t) (r : engine_state × Bool)
    (hf : drainFacts stB rest r)
    (hBi : stB.i = st.i) (hBa : stB.active = st.active) (hBp : stB.peak = st.peak)
    (hBat : stB.attached = st.attached.erase msg.index)
    (hBh : stB.handles = st.handles.set msg.index none)
    (hidx : msg.index ∈ st.attached) (hnd : st.attached.Nodup) :
    drainFacts st (msg :: rest) r := by
  obtain ⟨h1, h2, h3, h4, h5, h6, h7, h8, h9⟩ := hf
  have hmem : ∀ j ∈ r.1.attached, j ∈ st.attached.erase msg.index := by
    intro j hj
    rw [← hBat]
    exact h5 j hj
  refine ⟨by rw [h1, hBi], by rw [h2, hBa], by rw [h3, hBp], h4, ?_, ?_, ?_, ?_, ?_⟩
  · intro j hj
    exact List.mem_of_mem_erase (hmem j hj)
  · rw [hBat] at h6
    calc r.1.attached.length ≤ (st.attached.erase msg.index).length := h6
    _ ≤ st.attached.length := (List.erase_sublist _ _).length_le
  · rw [h7, hBh, List.length_set]
  · intro j hj
    have hne : j ≠ msg.index := ((hnd.mem_erase_iff).mp (hmem j hj)).1
    rw [h8 j hj, hBh, getD_set_ne _ _ _ _ (fun he => hne he.symm)]
  · intro hfalse
    have h10 := h9 hfalse
    rw [hBat, List.length_erase_of_mem hidx] at h10
    have hpos : 1 ≤ st.attached.length := by
      have : st.attached ≠ [] := List.ne_nil_of_mem hidx
      have := List.length_pos.mpr this
      omega
    simp only [List.length_cons]
    omega

theorem drainFacts_trip (st stB : engine_state) (msg : message_t)
    (rest : List message_t)
    (hBi : stB.i = st.i) (hBa : stB.active = st.active) (hBp : stB.peak = st.peak)
    (hBat : stB.attached = st.attached.erase msg.index)
    (hBh : stB.handles = st.handles.set msg.index none)
    (_hidx : msg.index ∈ st.attached) (hnd : st.attached.Nodup) :
    drainFacts st (msg :: rest) (stB, true) := by
  refine ⟨hBi, hBa, hBp, ?_, ?_, ?_, ?_, ?_, ?_⟩
  · rw [hBat]
    exact hnd.erase _
  · intro j hj
    rw [hBat] at hj
    exact List.mem_of_mem_erase hj
  · rw [hBat]
    exact (List.erase_sublist _ _).length_le
  · rw [hBh, List.length_set]
  · intro j hj
    rw [hBat] at hj
    have hne : j ≠ msg.index := ((hnd.mem_erase_iff).mp hj).1
    rw [hBh, getD_set_ne _ _ _ _ (fun he => hne he.symm)]
  · intro hfalse
    exact absurd hfalse (by simp)

theorem drainMsgs_facts :
    ∀ (batch : List message_t) (ce : Nat) (st : engine_state),
      (batch.map (fun m => m.index)).Nodup →
      (∀ m ∈ batch, m.index ∈ st.attached) →
      st.attached.Nodup →
      drainFacts st batch (drainMsgs batch ce st) := by
  intro batch
  induction batch with
  | nil =>
    intro ce st _ _ _
    exact ⟨rfl, rfl, rfl, by assumption, fun j hj => hj, Nat.le_refl _, rfl,
      fun j _ => rfl, fun _ => rfl⟩
  | cons msg rest ih =>
    intro ce st hmapN hmem hnd
    have hidx : msg.index ∈ st.attached := hmem msg (by simp)
    have hnotin : msg.index ∉ rest.map (fun m => m.index) := by
      rw [List.map_cons, List.nodup_cons] at hmapN
      exact hmapN.1
    have hmapN' : (rest.map (fun m => m.index)).Nodup := by
      rw [List.map_cons, List.nodup_cons] at hmapN
      exact hmapN.2
    have hrest_mem : ∀ m ∈ rest, m.index ∈ st.attached.erase msg.index := by
      intro m hm
      have hne : m.index ≠ msg.index := by
        intro he
        exact hnotin (he ▸ List.mem_map_of_mem (fun m => m.index) hm)
      exact (List.mem_erase_of_ne hne).mpr (hmem m (by simp [hm]))
    have hndE : (st.attached.erase msg.index).Nodup := hnd.erase _
    rw [drainMsgs]
    cases hres : msg.result with
    | some m =>
      dsimp only
      by_cases htrip : 5 ≤ ce + 1
      · rw [if_pos htrip]
        exact drainFacts_trip st _ msg rest rfl rfl rfl rfl rfl hidx hnd
      · rw [if_neg htrip]
        exact drainFacts_step st _ msg rest _
          (ih (ce + 1) _ hmapN' hrest_mem hndE) rfl rfl rfl rfl rfl hidx hnd
    | none =>
      dsimp only
      cases hv : verify_file
          ((st.handles.getD msg.index none).getD ⟨[], []⟩).path
          ((st.handles.getD msg.index none).getD ⟨[], []⟩).url msg.file with
      | none =>
        dsimp only
        exact drainFacts_step st _ msg rest _
          (ih 0 _ hmapN' hrest_mem hndE) rfl rfl rfl rfl rfl hidx hnd
      | some e =>
        dsimp only
        by_cases htrip : 5 ≤ ce + 1
        · rw [if_pos htrip]
          exact drainFacts_trip st _ msg rest rfl rfl rfl rfl rfl hidx hnd
        · rw [if_neg htrip]
          exact drainFacts_step st _ msg rest _
            (ih (ce + 1) _ hmapN' hrest_mem hndE) rfl rfl rfl rfl rfl hidx hnd

theorem engineLoop_step_inv (ps : List pathurl_t) (ok : Nat → Bool)
    (em : Nat → Str) (batch : List message_t) (st : engine_state)
    (hinv : engInv ps st)
    (hwfb : wfBatch (topoff ps ok em st).attached batch = true) :
    coreInv ps (drainMsgs batch 0
      { topoff ps ok em st with
        active := (topoff ps ok em st).attached.length - batch.length }).1 ∧
    ((drainMsgs batch 0
      { topoff ps ok em st with
        active := (topoff ps ok em st).attached.length - batch.length }).2 = false →
      engInv ps (drainMsgs batch 0
        { topoff ps ok em st with
          active := (topoff ps ok em st).attached.length - batch.length }).1) := by
  have h1 : engInv ps (topoff ps ok em st) := topoff_inv ps ok em st hinv
  obtain ⟨hmapN, hmem⟩ := of_decide_eq_true hwfb
  set st1 := topoff ps ok em st with hst1
  set st2 : engine_state := { st1 with active := st1.attached.length - batch.length }
    with hst2
  have hfacts := drainMsgs_facts batch 0 st2 hmapN hmem h1.nodup
  obtain ⟨f1, f2, f3, f4, f5, f6, f7, f8, f9⟩ := hfacts
  have hcore : coreInv ps (drainMsgs batch 0 st2).1 := by
    refine ⟨?_, f4, ?_, ?_, ?_, ?_, ?_⟩
    · calc (drainMsgs batch 0 st2).1.attached.length ≤ st1.attached.length := f6
      _ ≤ 5 := h1.card
    · intro j hj
      rw [f1]
      exact h1.ltI j (f5 j hj)
    · rw [f1]
      exact h1.iLe
    · rw [f7]
      exact h1.hlen
    · intro j hj
      rw [f8 j hj]
      exact h1.hslot j (f5 j hj)
    · rw [f3]
      exact h1.peakLe
  refine ⟨hcore, fun hfalse => ⟨hcore, ?_⟩⟩
  have h10 := f9 hfalse
  have hsa : st2.attached.length = st1.attached.length := rfl
  rw [hsa] at h10
  rw [f2]
  show st1.attached.length - batch.length = _
  omega

theorem engineLoop_peak (ps : List pathurl_t) (ok : Nat → Bool) (em : Nat → Str) :
    ∀ (schedule : List (List message_t)) (st : engine_state),
      engInv ps st → wfSchedule ps ok em schedule st = true →
      (engineLoop ps ok em schedule st).1.peak ≤ 5 := by
  intro schedule
  induction schedule with
  | nil => intro st hinv _; exact hinv.peakLe
  | cons batch rest ih =>
    intro st hinv hwf
    rw [wfSchedule, Bool.and_eq_true] at hwf
    obtain ⟨hwfb, hwfr⟩ := hwf
    have hstep := engineLoop_step_inv ps ok em batch st hinv hwfb
    rw [engineLoop]
    by_cases ht : (drainMsgs batch 0
        { topoff ps ok em st with
          active := (topoff ps ok em st).attached.length - batch.length }).2 = true
    · rw [if_pos ht]
      exact hstep.1.peakLe
    · rw [if_neg ht]
      exact ih _ (hstep.2 (Bool.eq_false_iff.mpr ht)) hwfr

/-- C3: the engine never has more than `max_active_handles = 5` transfers
(hence open destination files) attached to the multi-handle at any point of
its execution: the peak attached count of any well-formed run is at most 5,
and the top-off loop only attaches while the active count is strictly below
5 (its loop condition). -/
theorem C3_bounded_parallelism (ps : List pathurl_t) (ok : Nat → Bool)
    (em : Nat → Str) (schedule : List (List message_t))
    (hwf : wfSchedule ps ok em schedule (initState ps.length) = true) :
    (download_files ps ok em schedule).2.2 ≤ 5 := by
  have hd : (download_files ps ok em schedule).2.2 =
      (engineLoop ps ok em schedule (initState ps.length)).1.peak := rfl
  rw [hd]
  exact engineLoop_peak ps ok em schedule _ (initState_inv ps) hwf

/-- C3 witness: the bound applied to the concrete six-item run. -/
theorem C3_bounded_parallelism_witness :
    wfSchedule engItems (fun _ => true) (fun _ => [])
      engSchedSplit (initState engItems.length) = true ∧
    (download_files engItems (fun _ => true) (fun _ => []) engSchedSplit).2.2 ≤ 5 :=
  ⟨by decide, C3_bounded_parallelism engItems (fun _ => true) (fun _ => [])
    engSchedSplit (by decide)⟩

theorem topoffAux_succ (ps : List pathurl_t) (ok : Nat → Bool) (em : Nat → Str) :
    ∀ (fuel : Nat) (st : engine_state),
      (topoffAux ps ok em fuel st).results.succeeded_files =
        st.results.succeeded_files := by
  intro fuel
  induction fuel with
  | zero => intro st; rfl
  | succ fuel ih =>
    intro st
    rw [topoffAux]
    by_cases hc : st.active < 5 ∧ st.i < ps.length
    · rw [if_pos hc]
      by_cases hok : ok st.i = true
      · rw [if_pos hok, ih]
      · rw [if_neg hok, ih]
    · rw [if_neg hc]

theorem topoffAux_err_mem (ps : List pathurl_t) (ok : Nat → Bool) (em : Nat → Str) :
    ∀ (fuel : Nat) (st : engine_state) (e : curl_wrapper_error),
      e ∈ st.results.errors →
      e ∈ (topoffAux ps ok em fuel st).results.errors := by
  intro fuel
  induction fuel with
  | zero => intro st e he; exact he
  | succ fuel ih =>
    intro st e he
    rw [topoffAux]
    by_cases hc : st.active < 5 ∧ st.i < ps.length
    · rw [if_pos hc]
      by_cases hok : ok st.i = true
      · rw [if_pos hok]
        exact ih _ e he
      · rw [if_neg hok]
        refine ih _ e ?_
        exact List.mem_append.mpr (Or.inl he)
    · rw [if_neg hc]
      exact he

theorem drainMsgs_err_mem :
    ∀ (batch : List message_t) (ce : Nat) (st : engine_state)
      (e : curl_wrapper_error), e ∈ st.results.errors →
      e ∈ (drainMsgs batch ce st).1.results.errors := by
  intro batch
  induction batch with
  | nil => intro ce st e he; exact he
  | cons msg rest ih =>
    intro ce st e he
    rw [drainMsgs]
    cases hres : msg.result with
    | some m =>
      dsimp only
      by_cases htrip : 5 ≤ ce + 1
      · rw [if_pos htrip]
        exact List.mem_append.mpr (Or.inl he)
      · rw [if_neg htrip]
        refine ih _ _ e ?_
        exact List.mem_append.mpr (Or.inl he)
    | none =>
      dsimp only
      cases hv : verify_file
          ((st.handles.getD msg.index none).getD ⟨[], []⟩).path
          ((st.handles.getD msg.index none).getD ⟨[], []⟩).url msg.file with
      | none =>
        dsimp only
        exact ih _ _ e he
      | some e2 =>
        dsimp only
        by_cases htrip : 5 ≤ ce + 1
        · rw [if_pos htrip]
          exact List.mem_append.mpr (Or.inl he)
        · rw [if_neg htrip]
          refine ih _ _ e ?_
          exact List.mem_append.mpr (Or.inl he)

theorem engineLoop_err_mem (ps : List pathurl_t) (ok : Nat → Bool) (em : Nat → Str) :
    ∀ (schedule : List (List message_t)) (st : engine_state)
      (e : curl_wrapper_error), e ∈ st.results.errors →
      e ∈ (engineLoop ps ok em schedule st).1.results.errors := by
  intro schedule
  induction schedule with
  | nil => intro st e he; exact he
  | cons batch rest ih =>
    intro st e he
    rw [engineLoop]
    have h1 : e ∈ (drainMsgs batch 0
        { topoff ps ok em st with
          active := (topoff ps ok em st).attached.length - batch.length }).1.results.errors := by
      refine drainMsgs_err_mem batch 0 _ e ?_
      exact topoffAux_err_mem ps ok em _ st e he
    by_cases ht : (drainMsgs batch 0
        { topoff ps ok em st with
          active := (topoff ps ok em st).attached.length - batch.length }).2 = true
    · rw [if_pos ht]
      exact h1
    · rw [if_neg ht]
      exact ih _ e h1

theorem verify_file_small (p u : Str) (f : filedata_t) (h1 : f.sizeErr = none)
    (h2 : f.size ≤ 1024) (h3 : f.openErr = none) :
    verify_file p u f = some (scanErrorOf f.lines u p) := by
  rw [verify_file, h1, if_pos h2, h3, scanErrorOf]
  cases scanFileLines f.lines u p <;> rfl

theorem drainMsgs_succ_from (ps : List pathurl_t) :
    ∀ (batch : List message_t) (ce : Nat) (st : engine_state),
      (batch.map (fun m => m.index)).Nodup →
      (∀ m ∈ batch, m.index ∈ st.attached) →
      st.attached.Nodup →
      (∀ j ∈ st.attached, st.handles.getD j none = some (ps.getD j ⟨[], []⟩)) →
      (∀ j ∈ st.attached, j < ps.length) →
      ∀ p ∈ (drainMsgs batch ce st).1.results.succeeded_files,
        p ∈ st.results.succeeded_files ∨
        ∃ m ∈ batch, m.result = none ∧ m.file.sizeErr = none ∧
          1024 < m.file.size ∧ ∃ pu, ps[m.index]? = some pu ∧ p = pu.path := by
  intro batch
  induction batch with
  | nil => intro ce st _ _ _ _ _ p hp; exact Or.inl hp
  | cons msg rest ih =>
    intro ce st hmapN hmem hnd hslot hjlen p hp
    have hidx : msg.index ∈ st.attached := hmem msg (by simp)
    have hnotin : msg.index ∉ rest.map (fun m => m.index) := by
      rw [List.map_cons, List.nodup_cons] at hmapN
      exact hmapN.1
    have hmapN' : (rest.map (fun m => m.index)).Nodup := by
      rw [List.map_cons, List.nodup_cons] at hmapN
      exact hmapN.2
    have hrest_mem : ∀ m ∈ rest, m.index ∈ st.attached.erase msg.index := by
      intro m hm
      have hne : m.index ≠ msg.index := by
        intro he
        exact hnotin (he ▸ List.mem_map_of_mem (fun m => m.index) hm)
      exact (List.mem_erase_of_ne hne).mpr (hmem m (by simp [hm]))
    have hndE : (st.attached.erase msg.index).Nodup := hnd.erase _
    have hslotE : ∀ j ∈ st.attached.erase msg.index,
        (st.handles.set msg.index none).getD j none = some (ps.getD j ⟨[], []⟩) := by
      intro j hj
      have hne : j ≠ msg.index := (hnd.mem_erase_iff.mp hj).1
      rw [getD_set_ne _ _ _ _ (fun he => hne he.symm)]
      exact hslot j (List.mem_of_mem_erase hj)
    have hjlenE : ∀ j ∈ st.attached.erase msg.index, j < ps.length :=
      fun j hj => hjlen j (List.mem_of_mem_erase hj)
    have hpu : (st.handles.getD msg.index none).getD ⟨[], []⟩ =
        ps.getD msg.index ⟨[], []⟩ := by
      rw [hslot msg.index hidx]
      rfl
    have hpsome : ps[msg.index]? = some (ps.getD msg.index ⟨[], []⟩) := by
      rw [List.getElem?_eq_getElem (hjlen msg.index hidx),
        List.getD_eq_getElem ps ⟨[], []⟩ (hjlen msg.index hidx)]
    rw [drainMsgs] at hp
    cases hres : msg.result with
    | some m =>
      rw [hres] at hp
      dsimp only at hp
      by_cases htrip : 5 ≤ ce + 1
      · rw [if_pos htrip] at hp
        exact Or.inl hp
      · rw [if_neg htrip] at hp
        rcases ih (ce + 1) _ hmapN' hrest_mem hndE hslotE hjlenE p hp with
          h | ⟨m2, hm2, hrest⟩
        · exact Or.inl h
        · exact Or.inr ⟨m2, by simp [hm2], hrest⟩
    | none =>
      rw [hres] at hp
      dsimp only at hp
      cases hv : verify_file
          ((st.handles.getD msg.index none).getD ⟨[], []⟩).path
          ((st.handles.getD msg.index none).getD ⟨[], []⟩).url msg.file with
      | none =>
        rw [hv] at hp
        dsimp only at hp
        rcases ih 0 _ hmapN' hrest_mem hndE hslotE hjlenE p hp with
          h | ⟨m2, hm2, hrest⟩
        · rcases List.mem_append.mp h with h | h
          · exact Or.inl h
          · have hpp : p = ((st.handles.getD msg.index none).getD ⟨[], []⟩).path := by
              simpa using h
            have hver := (verify_file_eq_none_iff _ _ msg.file).mp hv
            refine Or.inr ⟨msg, by simp, hres, hver.1, hver.2,
              ps.getD msg.index ⟨[], []⟩, hpsome, ?_⟩
            rw [hpp, hpu]
        · exact Or.inr ⟨m2, by simp [hm2], hrest⟩
      | some e =>
        rw [hv] at hp
        dsimp only at hp
        by_cases htrip : 5 ≤ ce + 1
        · rw [if_pos htrip] at hp
          exact Or.inl hp
        · rw [if_neg htrip] at hp
          rcases ih (ce + 1) _ hmapN' hrest_mem hndE hslotE hjlenE p hp with
            h | ⟨m2, hm2, hrest⟩
          · exact Or.inl h
          · exact Or.inr ⟨m2, by simp [hm2], hrest⟩

theorem drainMsgs_err_from (ps : List pathurl_t) :
    ∀ (batch : List message_t) (ce : Nat) (st : engine_state),
      (batch.map (fun m => m.index)).Nodup →
      (∀ m ∈ batch, m.index ∈ st.attached) →
      st.attached.Nodup →
      (∀ j ∈ st.attached, st.handles.getD j none = some (ps.getD j ⟨[], []⟩)) →
      (∀ j ∈ st.attached, j < ps.length) →
      (drainMsgs batch ce st).2 = false →
      ∀ m ∈ batch, m.result = none → m.file.sizeErr = none →
        m.file.size ≤ 1024 → m.file.openErr = none →
        ∃ pu, ps[m.index]? = some pu ∧
          scanErrorOf m.file.lines pu.url pu.path ∈
            (drainMsgs batch ce st).1.results.errors := by
  intro batch
  induction batch with
  | nil => intro ce st _ _ _ _ _ _ m hm; simp at hm
  | cons msg rest ih =>
    intro ce st hmapN hmem hnd hslot hjlen hfalse m hm hmr hsz1 hsz2 hop
    have hidx : msg.index ∈ st.attached := hmem msg (by simp)
    have hnotin : msg.index ∉ rest.map (fun m => m.index) := by
      rw [List.map_cons, List.nodup_cons] at hmapN
      exact hmapN.1
    have hmapN' : (rest.map (fun m => m.index)).Nodup := by
      rw [List.map_cons, List.nodup_cons] at hmapN
      exact hmapN.2
    have hrest_mem : ∀ m ∈ rest, m.index ∈ st.attached.erase msg.index := by
      intro m2 hm2
      have hne : m2.index ≠ msg.index := by
        intro he
        exact hnotin (he ▸ List.mem_map_of_mem (fun m => m.index) hm2)
      exact (List.mem_erase_of_ne hne).mpr (hmem m2 (by simp [hm2]))
    have hndE : (st.attached.erase msg.index).Nodup := hnd.erase _
    have hslotE : ∀ j ∈ st.attached.erase msg.index,
        (st.handles.set msg.index none).getD j none = some (ps.getD j ⟨[], []⟩) := by
      intro j hj
      have hne : j ≠ msg.index := (hnd.mem_erase_iff.mp hj).1
      rw [getD_set_ne _ _ _ _ (fun he => hne he.symm)]
      exact hslot j (List.mem_of_mem_erase hj)
    have hjlenE : ∀ j ∈ st.attached.erase msg.index, j < ps.length :=
      fun j hj => hjlen j (List.mem_of_mem_erase hj)
    have hpu : (st.handles.getD msg.index none).getD ⟨[], []⟩ =
        ps.getD msg.index ⟨[], []⟩ := by
      rw [hslot msg.index hidx]
      rfl
    have hpsome : ps[msg.index]? = some (ps.getD msg.index ⟨[], []⟩) := by
      rw [List.getElem?_eq_getElem (hjlen msg.index hidx),
        List.getD_eq_getElem ps ⟨[], []⟩ (hjlen msg.index hidx)]
    rw [drainMsgs] at hfalse ⊢
    cases hres : msg.result with
    | some mm =>
      rw [hres] at hfalse
      dsimp only at hfalse ⊢
      by_cases htrip : 5 ≤ ce + 1
      · rw [if_pos htrip] at hfalse
        exact absurd hfalse (by simp)
      · rw [if_neg htrip] at hfalse ⊢
        rcases List.mem_cons.mp hm with rfl | hm2
        · rw [hres] at hmr
          exact absurd hmr (by simp)
        · exact ih (ce + 1) _ hmapN' hrest_mem hndE hslotE hjlenE hfalse
            m hm2 hmr hsz1 hsz2 hop
    | none =>
      rw [hres] at hfalse
      dsimp only at hfalse ⊢
      cases hv : verify_file
          ((st.handles.getD msg.index none).getD ⟨[], []⟩).path
          ((st.handles.getD msg.index none).getD ⟨[], []⟩).url msg.file with
      | none =>
        rw [hv] at hfalse
        dsimp only at hfalse ⊢
        rcases List.mem_cons.mp hm with rfl | hm2
        · have hver := (verify_file_eq_none_iff _ _ m.file).mp hv
          omega
        · exact ih 0 _ hmapN' hrest_mem hndE hslotE hjlenE hfalse
            m hm2 hmr hsz1 hsz2 hop
      | some e =>
        rw [hv] at hfalse
        dsimp only at hfalse ⊢
        by_cases htrip : 5 ≤ ce + 1
        · rw [if_pos htrip] at hfalse
          exact absurd hfalse (by simp)
        · rw [if_neg htrip] at hfalse ⊢
          rcases List.mem_cons.mp hm with rfl | hm2
          · have hse : e = scanErrorOf m.file.lines
                (ps.getD m.index ⟨[], []⟩).url (ps.getD m.index ⟨[], []⟩).path := by
              have hvs := verify_file_small
                ((st.handles.getD m.index none).getD ⟨[], []⟩).path
                ((st.handles.getD m.index none).getD ⟨[], []⟩).url
                m.file hsz1 hsz2 hop
              rw [hv, hpu] at hvs
              exact Option.some.inj hvs
            refine ⟨ps.getD m.index ⟨[], []⟩, hpsome, ?_⟩
            rw [← hse]
            refine drainMsgs_err_mem rest (ce + 1) _ e ?_
            exact List.mem_append.mpr (Or.inr (by simp))
          · exact ih (ce + 1) _ hmapN' hrest_mem hndE hslotE hjlenE hfalse
              m hm2 hmr hsz1 hsz2 hop

theorem engineLoop_succ_from (ps : List pathurl_t) (ok : Nat → Bool) (em : Nat → Str) :
    ∀ (schedule : List (List message_t)) (st : engine_state),
      engInv ps st → wfSchedule ps ok em schedule st = true →
      ∀ p ∈ (engineLoop ps ok em schedule st).1.results.succeeded_files,
        p ∈ st.results.succeeded_files ∨
        ∃ b ∈ schedule, ∃ m ∈ b, m.result = none ∧ m.file.sizeErr = none ∧
          1024 < m.file.size ∧ ∃ pu, ps[m.index]? = some pu ∧ p = pu.path := by
  intro schedule
  induction schedule with
  | nil => intro st _ _ p hp; exact Or.inl hp
  | cons batch rest ih =>
    intro st hinv hwf p hp
    rw [wfSchedule, Bool.and_eq_true] at hwf
    obtain ⟨hwfb, hwfr⟩ := hwf
    have h1 : engInv ps (topoff ps ok em st) := topoff_inv ps ok em st hinv
    obtain ⟨hmapN, hmem⟩ := of_decide_eq_true hwfb
    have hstep := engineLoop_step_inv ps ok em batch st hinv hwfb
    have hjlen : ∀ j ∈ (topoff ps ok em st).attached, j < ps.length := by
      intro j hj
      have h2 := h1.ltI j hj
      have h3 := h1.iLe
      omega
    have hdrain := drainMsgs_succ_from ps batch 0
      { topoff ps ok em st with
        active := (topoff ps ok em st).attached.length - batch.length }
      hmapN hmem h1.nodup h1.hslot hjlen
    have hsucc2 : ({ topoff ps ok em st with
        active := (topoff ps ok em st).attached.length - batch.length }
          : engine_state).results.succeeded_files = st.results.succeeded_files := by
      show (topoff ps ok em st).results.succeeded_files = _
      exact topoffAux_succ ps ok em _ st
    rw [engineLoop] at hp
    by_cases ht : (drainMsgs batch 0
        { topoff ps ok em st with
          active := (topoff ps ok em st).attached.length - batch.length }).2 = true
    · rw [if_pos ht] at hp
      rcases hdrain p hp with h | ⟨m, hm, hrest⟩
      · rw [hsucc2] at h
        exact Or.inl h
      · exact Or.inr ⟨batch, by simp, m, hm, hrest⟩
    · rw [if_neg ht] at hp
      have hinv2 := hstep.2 (Bool.eq_false_iff.mpr ht)
      rcases ih _ hinv2 hwfr p hp with h | ⟨b2, hb2, m, hm, hrest⟩
      · rcases hdrain p h with h | ⟨m, hm, hrest⟩
        · rw [hsucc2] at h
          exact Or.inl h
        · exact Or.inr ⟨batch, by simp, m, hm, hrest⟩
      · exact Or.inr ⟨b2, by simp [hb2], m, hm, hrest⟩

theorem engineLoop_err_from (ps : List pathurl_t) (ok : Nat → Bool) (em : Nat → Str) :
    ∀ (schedule : List (List message_t)) (st : engine_state),
      engInv ps st → wfSchedule ps ok em schedule st = true →
      (engineLoop ps ok em schedule st).2 = false →
      ∀ b ∈ schedule, ∀ m ∈ b, m.result = none → m.file.sizeErr = none →
        m.file.size ≤ 1024 → m.file.openErr = none →
        ∃ pu, ps[m.index]? = some pu ∧
          scanErrorOf m.file.lines pu.url pu.path ∈
            (engineLoop ps ok em schedule st).1.results.errors := by
  intro schedule
  induction schedule with
  | nil => intro st _ _ _ b hb; simp at hb
  | cons batch rest ih =>
    intro st hinv hwf hfalse b hb m hm hmr hsz1 hsz2 hop
    rw [wfSchedule, Bool.and_eq_true] at hwf
    obtain ⟨hwfb, hwfr⟩ := hwf
    have h1 : engInv ps (topoff ps ok em st) := topoff_inv ps ok em st hinv
    obtain ⟨hmapN, hmem⟩ := of_decide_eq_true hwfb
    have hstep := engineLoop_step_inv ps ok em batch st hinv hwfb
    have hjlen : ∀ j ∈ (topoff ps ok em st).attached, j < ps.length := by
      intro j hj
      have h2 := h1.ltI j hj
      have h3 := h1.iLe
      omega
    rw [engineLoop] at hfalse ⊢
    by_cases ht : (drainMsgs batch 0
        { topoff ps ok em st with
          active := (topoff ps ok em st).attached.length - batch.length }).2 = true
    · rw [if_pos ht] at hfalse
      exact absurd hfalse (by simp)
    · have htf : (drainMsgs batch 0
          { topoff ps ok em st with
            active := (topoff ps ok em st).attached.length - batch.length }).2 = false :=
        Bool.eq_false_iff.mpr ht
      rw [if_neg ht] at hfalse ⊢
      have hinv2 := hstep.2 htf
      rcases List.mem_cons.mp hb with rfl | hb2
      · obtain ⟨pu, hpu, hememb⟩ := drainMsgs_err_from ps b 0
          { topoff ps ok em st with
            active := (topoff ps ok em st).attached.length - b.length }
          hmapN hmem h1.nodup h1.hslot hjlen htf m hm hmr hsz1 hsz2 hop
        exact ⟨pu, hpu, engineLoop_err_mem ps ok em rest _ _ hememb⟩
      · exact ih _ hinv2 hwfr hfalse b hb2 m hm hmr hsz1 hsz2 hop

/-- Fixture: a small downloaded file (10 bytes) whose only line carries the
rate-limit marker. -/
def engSmallFile : filedata_t := ⟨none, 10, none, [strLit "error code: 1015"]⟩

/-- Fixture: one drain batch completing transfer 0 with the small file. -/
def engSmallBatch : List message_t := [⟨0, none, engSmallFile⟩]

/-- Fixture: a schedule of that single batch. -/
def engSchedSmall : List (List message_t) := [engSmallBatch]

/-- C4 counterexample: `verify_file` scans line by line and, per line, checks
`error code: 1015` before the title pattern; across lines the first matching
line wins.  On a small file whose first line has `<title>T</title>` and whose
second line contains `error code: 1015`, the recorded error message is the
title capture `T`, not `rate limit exceeded` as the claim's global
priority (`1015` anywhere beats any title) would require. -/
theorem C4_counterexample :
    verify_file (strLit "p") (strLit "u")
      ⟨none, 10, none, [strLit "<title>T</title>", strLit "error code: 1015"]⟩ =
      some ⟨strLit "T", strLit "u", strLit "p"⟩ ∧
    (∃ line ∈ [strLit "<title>T</title>", strLit "error code: 1015"],
      (strLit "error code: 1015") <:+: line) ∧
    strLit "T" ≠ strLit "rate limit exceeded" := by
  refine ⟨by decide, ⟨strLit "error code: 1015", by decide, by decide⟩, by decide⟩

/-- C4 amended: in every well-formed run of `download_files`, (a) every path
in `Results.succeeded` comes from a transfer that completed without transport
error and whose downloaded file had a readable size strictly greater than
1024 bytes (it passed `verify_file`); and (b) when the breaker does not trip,
every transfer whose file has size at most 1024 bytes (and no filesystem
error) is recorded as the error `scanErrorOf` of its lines: the file is
scanned line by line, each line checked for the literal `error code: 1015`
(then `rate limit exceeded`) and else for `<title>...</title>` (then the
title capture), the first matching line deciding, and `unknown error` when no
line matches — not the claim's global priority of `1015` over titles. -/
theorem C4_amended (ps : List pathurl_t) (ok : Nat → Bool) (em : Nat → Str)
    (schedule : List (List message_t))
    (hwf : wfSchedule ps ok em schedule (initState ps.length) = true) :
    (∀ p ∈ (download_files ps ok em schedule).1.succeeded_files,
      ∃ b ∈ schedule, ∃ m ∈ b, m.result = none ∧ m.file.sizeErr = none ∧
        1024 < m.file.size ∧ ∃ pu, ps[m.index]? = some pu ∧ p = pu.path) ∧
    ((download_files ps ok em schedule).2.1 = false →
      ∀ b ∈ schedule, ∀ m ∈ b, m.result = none → m.file.sizeErr = none →
        m.file.size ≤ 1024 → m.file.openErr = none →
        ∃ pu, ps[m.index]? = some pu ∧
          scanErrorOf m.file.lines pu.url pu.path ∈
            (download_files ps ok em schedule).1.errors) := by
  have hds : (download_files ps ok em schedule).1.succeeded_files =
      (engineLoop ps ok em schedule (initState ps.length)).1.results.succeeded_files :=
    rfl
  have hde : (download_files ps ok em schedule).1.errors =
      (engineLoop ps ok em schedule (initState ps.length)).1.results.errors := rfl
  have hdt : (download_files ps ok em schedule).2.1 =
      (engineLoop ps ok em schedule (initState ps.length)).2 := rfl
  constructor
  · intro p hp
    rw [hds] at hp
    rcases engineLoop_succ_from ps ok em schedule _ (initState_inv ps) hwf p hp with
      h | h
    · simp [initState] at h
    · exact h
  · intro hfalse b hb m hm hmr hsz1 hsz2 hop
    rw [hdt] at hfalse
    rw [hde]
    exact engineLoop_err_from ps ok em schedule _ (initState_inv ps) hwf hfalse
      b hb m hm hmr hsz1 hsz2 hop

/-- C4 witness: the amended postcondition applied to a run of the six-item
fixture in which transfer 0 completes with a 10-byte file containing
`error code: 1015`: its `scanErrorOf` record lands in the error list. -/
theorem C4_amended_witness :
    ∃ pu, engItems[(0 : Nat)]? = some pu ∧
      scanErrorOf engSmallFile.lines pu.url pu.path ∈
        (download_files engItems (fun _ => true) (fun _ => []) engSchedSmall).1.errors :=
  (C4_amended engItems (fun _ => true) (fun _ => []) engSchedSmall (by decide)).2
    (by decide) engSmallBatch (by decide) ⟨0, none, engSmallFile⟩ (by decide)
    rfl rfl (by decide) rfl

end CurlM3u8
